import Mathlib

/-!
Verification development for the miner-sim commit-graph analyzer
(source: src/miner-vis.py).

The Python script builds a commit DAG from block-commit records
(get_block_commits_with_parents), marks the canonical chain and enriches
winning commits (mark_canonical_blocks), scores competing live tips
(get_score_to_common_ancestor) and predicts the next canonical tip
(mark_next_tip), and rolls up per-group statistics (compute_stats).

The embedding below follows the Python source closely:
  * Python dicts become insertion-ordered association lists (lookupA /
    insertA), matching dict iteration order and in-place value update.
  * Python exceptions (TypeError on None arithmetic or comparison,
    AttributeError on attribute access of None, KeyError on missing dict
    keys, UnboundLocalError on reading a never-assigned local) become an
    explicit error type PyErr, and fallible operations return Except.
  * Unbounded while-loops take an explicit fuel argument; running out of
    fuel is a distinguished error .fuelOut that the real program never
    produces on the well-formed inputs considered by the theorems.
  * Machine-independent Python ints become Int; the nullable
    stacks_height becomes Option Int.
  * sqlite lookups (snapshots, payments, block_headers tables) become
    read-only function fields of a ChainData record, mirroring the exact
    queries the script performs.
-/

/-- Python-exception outcomes of the embedded code paths. -/
inductive PyErr : Type where
  | typeError
  | attributeError
  | keyError
  | unboundLocal
  | fuelOut
deriving DecidableEq, Repr

/-- Lookup in an insertion-ordered association list (Python dict read). -/
def lookupA {α β : Type} [DecidableEq α] : List (α × β) → α → Option β
  | [], _ => none
  | (k, v) :: t, a => if k = a then some v else lookupA t a

/-- Insert or update in an insertion-ordered association list (Python dict
write): an existing key keeps its position, a new key is appended. -/
def insertA {α β : Type} [DecidableEq α] : List (α × β) → α → β → List (α × β)
  | [], k, v => [(k, v)]
  | (k0, v0) :: t, k, v => if k0 = k then (k0, v) :: t else (k0, v0) :: insertA t k v

/-- Monadic left fold propagating the first error (a Python for-loop whose
body may raise). -/
def foldE {σ α : Type} (f : σ → α → Except PyErr σ) : σ → List α → Except PyErr σ
  | s, [] => .ok s
  | s, a :: l =>
    match f s a with
    | .error e => .error e
    | .ok s2 => foldE f s2 l

/-- Python string slice s[1:-1]: drop the first and the last character
(used by Commit to strip the quotes around apparent_sender). -/
def pyStripEnds (s : String) : String := (s.drop 1).dropRight 1

/-- Commit node (class Commit of miner-vis.py): immutable identity fields
set at construction plus mutable enrichment fields defaulted as in
Commit init. -/
structure Commit : Type where
  block_header_hash : String
  txid : String
  sender : String
  burn_block_height : Int
  spend : Int
  sortition_id : String
  parent : Option String := none
  stacks_height : Option Int := none
  block_hash : Option String := none
  won : Bool := false
  canonical : Bool := false
  tip : Bool := false
  coinbase_earned : Int := 0
  fees_earned : Int := 0
  read_length : Int := 0
  read_count : Int := 0
  write_length : Int := 0
  write_count : Int := 0
  runtime : Int := 0
  block_size : Int := 0
  potential_tip : Bool := false
  next_tip : Bool := false
deriving DecidableEq, Repr

/-- The commit graph: Python dict from block_header_hash to Commit. -/
abbrev CMap := List (String × Commit)

/-- Fork scores: Python dict from block_header_hash to running score. -/
abbrev Scores := List (String × Int)

/-- Commit constructor as called by the graph builder: mirrors
Commit.__init__, in particular sender = sender[1:-1] (quote stripping). -/
def Commit.build (block_header_hash txid sender : String)
    (burn_block_height spend : Int) (sortition_id : String)
    (parent : Option String) : Commit :=
  { block_header_hash := block_header_hash
    txid := txid
    sender := pyStripEnds sender
    burn_block_height := burn_block_height
    spend := spend
    sortition_id := sortition_id
    parent := parent }

/-- One raw row of the block_commits query in
get_block_commits_with_parents, in the order the SELECT lists them. -/
structure RawCommit : Type where
  block_header_hash : String
  txid : String
  apparent_sender : String
  sortition_id : String
  vtxindex : Int
  block_height : Int
  burn_fee : Int
  parent_block_ptr : Int
  parent_vtxindex : Int
deriving DecidableEq, Repr

/-- Scan state of get_block_commits_with_parents: the
(height, vtxindex) to hash index, the commit map, and per-round spend. -/
structure BState : Type where
  parent_hashes : List ((Int × Int) × String)
  commits : CMap
  sortition_sats : List (String × Int)
deriving DecidableEq, Repr

/-- Processing of one scanned record in get_block_commits_with_parents:
resolve the declared parent against the index built so far, store the
commit, register this record in the index, accumulate round spend. -/
def buildStep (st : BState) (r : RawCommit) : BState :=
  let parent := lookupA st.parent_hashes (r.parent_block_ptr, r.parent_vtxindex)
  { parent_hashes := insertA st.parent_hashes (r.block_height, r.vtxindex) r.block_header_hash
    commits := insertA st.commits r.block_header_hash
      (Commit.build r.block_header_hash r.txid r.apparent_sender
        r.block_height r.burn_fee r.sortition_id parent)
    sortition_sats := insertA st.sortition_sats r.sortition_id
      ((lookupA st.sortition_sats r.sortition_id).getD 0 + r.burn_fee) }

/-- get_block_commits_with_parents: single linear pass over the records
returned by the window query (ordered ascending by block_height by the
SQL), producing the hash-to-Commit map and the round-id-to-spend map. -/
def get_block_commits_with_parents (rows : List RawCommit) : CMap × List (String × Int) :=
  let st := rows.foldl buildStep ⟨[], [], []⟩
  (st.commits, st.sortition_sats)

/-- Per-miner entry of the TOML miner config (nullable name and group). -/
structure MinerInfo : Type where
  name : Option String
  group : Option String
deriving DecidableEq, Repr

/-- The classification registry (miner_config): sender to MinerInfo. -/
structure MinerConfig : Type where
  miners : List (String × MinerInfo)
  tracked_group : Option String
deriving DecidableEq, Repr

/-- get_miner_name: display name from the registry, defaulting to the
first 8 characters of the identifier. -/
def get_miner_name (cfg : MinerConfig) (identifier : String) : String :=
  match lookupA cfg.miners identifier with
  | some mi => mi.name.getD (identifier.take 8)
  | none => identifier.take 8

/-- get_miner_group: group from the registry, defaulting to Other. -/
def get_miner_group (cfg : MinerConfig) (identifier : String) : String :=
  match lookupA cfg.miners identifier with
  | some mi => mi.group.getD "Other"
  | none => "Other"

/-- One row of the snapshots table as read by mark_canonical_blocks:
the per-height outcome (winning txid, processed stacks height, consensus
hash) together with the canonical tip column used for start_block. -/
structure Snapshot : Type where
  winning_block_txid : String
  stacks_block_height : Int
  consensus_hash : String
  canonical_stacks_tip_hash : String
deriving DecidableEq, Repr

/-- One row of the payments table (post-processing results). -/
structure Payment : Type where
  block_hash : String
  coinbase : Int
  tx_fees_anchored : Int
  tx_fees_streamed : Int
deriving DecidableEq, Repr

/-- Cost and size columns of a block_headers row (the cost JSON already
decoded into its six integer fields). -/
structure BlockHeaderRow : Type where
  read_length : Int
  read_count : Int
  write_length : Int
  write_count : Int
  runtime : Int
  block_size : Int
deriving DecidableEq, Repr

/-- The read-only sqlite data consulted by mark_canonical_blocks:
snapshots by burn height, payments by consensus hash, block_headers by
block hash. -/
structure ChainData : Type where
  snapshots : Int → Option Snapshot
  payments : String → Option Payment
  block_headers : String → Option BlockHeaderRow

/-- Marker state while mark_canonical_blocks runs: the commit map plus
the function-local block_hash variable, which is assigned only when a
payments row is found and persists across loop iterations (none models
the never-assigned state whose use raises UnboundLocalError). -/
abbrev MState := CMap × Option String

/-- Winner mutations of mark_canonical_blocks before the processed
branch: won, potential_tip and stacks_height from the snapshot. -/
def setWonFields (c : Commit) (sh : Int) : Commit :=
  { c with won := true, potential_tip := true, stacks_height := some sh }

/-- Enrichment from a payments row: block hash, coinbase, fees. -/
def applyPayment (c : Commit) (pay : Payment) : Commit :=
  { c with block_hash := some pay.block_hash
           coinbase_earned := pay.coinbase
           fees_earned := pay.tx_fees_anchored + pay.tx_fees_streamed }

/-- Enrichment from a block_headers row: costs and block size. -/
def applyCosts (c : Commit) (row : BlockHeaderRow) : Commit :=
  { c with read_length := row.read_length
           read_count := row.read_count
           write_length := row.write_length
           write_count := row.write_count
           runtime := row.runtime
           block_size := row.block_size }

/-- The parent potential_tip clearing of the winner branch: when the
winner's parent hash pr is truthy and present (and not the winner's own
key, whose aliasing the caller handles), its potential_tip is cleared. -/
def clearParentTip (m : CMap) (k : String) (pr : Option String) : CMap :=
  match pr with
  | none => m
  | some p =>
    if p = "" then m
    else if p = k then m
    else
      match lookupA m p with
      | none => m
      | some pc => insertA m p { pc with potential_tip := false }

/-- The winner branch of mark_canonical_blocks for the commit at key k:
set won / potential_tip / stacks_height, clear the parent's
potential_tip when the parent hash is truthy and present (the parent may
alias the commit itself), and if the round is processed fetch payments
and block costs.  The block_headers query reads the function-local
block_hash variable: fresh when the payments row was found, otherwise
the stale or unassigned previous value (unassigned raises
UnboundLocalError, exactly as in Python). -/
def winnerUpdate (chain : ChainData) (snap : Snapshot) (m : CMap)
    (reg : Option String) (k : String) (c : Commit) : Except PyErr MState :=
  let c1 := setWonFields c snap.stacks_block_height
  let c2 := if c1.parent = some k then { c1 with potential_tip := false } else c1
  let mPar : CMap := clearParentTip m k c1.parent
  if snap.stacks_block_height > 0 then
    match chain.payments snap.consensus_hash with
    | some pay =>
      let c3 := applyPayment c2 pay
      let c4 :=
        match chain.block_headers pay.block_hash with
        | some row => applyCosts c3 row
        | none => c3
      .ok (insertA mPar k c4, some pay.block_hash)
    | none =>
      match reg with
      | none => .error .unboundLocal
      | some bh =>
        let c4 :=
          match chain.block_headers bh with
          | some row => applyCosts c2 row
          | none => c2
        .ok (insertA mPar k c4, reg)
  else .ok (insertA mPar k c2, reg)

/-- The non-winner branch of mark_canonical_blocks: when the parent hash
is truthy and present, stacks_height becomes the parent's plus one; a
parent whose stacks_height is still None makes the addition raise
TypeError, exactly as in Python. -/
def nonWinnerUpdate (m : CMap) (k : String) (c : Commit) : Except PyErr CMap :=
  match c.parent with
  | none => .ok m
  | some p =>
    if p = "" then .ok m
    else
      match lookupA m p with
      | none => .ok m
      | some pc =>
        match pc.stacks_height with
        | none => .error .typeError
        | some v => .ok (insertA m k { c with stacks_height := some (v + 1) })

/-- One step of the inner per-round loop of mark_canonical_blocks: the
commit at key k is processed when its burn height matches the round. -/
def innerStep (chain : ChainData) (snap : Snapshot) (h : Int)
    (st : MState) (k : String) : Except PyErr MState :=
  match lookupA st.1 k with
  | none => .ok st
  | some c =>
    if c.burn_block_height = h then
      if snap.winning_block_txid = c.txid then
        winnerUpdate chain snap st.1 st.2 k c
      else
        match nonWinnerUpdate st.1 k c with
        | .error e => .error e
        | .ok m2 => .ok (m2, st.2)
    else .ok st

/-- One iteration of the outer loop of mark_canonical_blocks: fetch the
snapshots row for the height (a missing row is the fatal unpack of None)
and run the inner loop over the keys of the commit map. -/
def processHeight (chain : ChainData) (st : MState) (h : Int) : Except PyErr MState :=
  match chain.snapshots h with
  | none => .error .typeError
  | some snap => foldE (innerStep chain snap h) st (st.1.map Prod.fst)

/-- Insertion into a strictly ascending list of heights, skipping
duplicates: together with the fold below this realises
sorted(set(...)). -/
def insertSortedDedup (x : Int) : List Int → List Int
  | [] => [x]
  | y :: ys =>
    if x < y then x :: y :: ys
    else if x = y then y :: ys
    else y :: insertSortedDedup x ys

/-- The distinct burn heights of the map, ascending: the iteration order
of the outer loop of mark_canonical_blocks. -/
def heightsOf (m : CMap) : List Int :=
  (m.map (fun kc => kc.2.burn_block_height)).foldr insertSortedDedup []

/-- The canonical-chain walk of mark_canonical_blocks: from the declared
tip, mark canonical and step to the parent, stopping at a falsy (None or
empty) hash; a hash absent from the map raises KeyError. -/
def canonicalWalk : Nat → CMap → Option String → Except PyErr CMap
  | 0, _, _ => .error .fuelOut
  | fuel + 1, m, t =>
    match t with
    | none => .ok m
    | some h =>
      if h = "" then .ok m
      else
        match lookupA m h with
        | none => .error .keyError
        | some c => canonicalWalk fuel (insertA m h { c with canonical := true }) c.parent

/-- mark_canonical_blocks: per ascending round, resolve the winner and
enrich it (or give non-winners a provisional stacks_height), then look
up the canonical tip at start_block, flag it and walk its parent chain
marking the canonical path.  Returns the final map and the tip hash. -/
def mark_canonical_blocks (fuel : Nat) (chain : ChainData) (commits : CMap)
    (start_block : Int) : Except PyErr (CMap × String) :=
  match foldE (processHeight chain) (commits, none) (heightsOf commits) with
  | .error e => .error e
  | .ok st =>
    match chain.snapshots start_block with
    | none => .error .typeError
    | some snap =>
      let canonical_tip := snap.canonical_stacks_tip_hash
      match lookupA st.1 canonical_tip with
      | none => .error .keyError
      | some c =>
        match canonicalWalk fuel (insertA st.1 canonical_tip { c with tip := true })
            (some canonical_tip) with
        | .error e => .error e
        | .ok m3 => .ok (m3, canonical_tip)

/-- The stacks heights of a list of commits; any None among them makes
the min/max generators of get_score_to_common_ancestor raise (modelled
as one TypeError for the whole comparison chain). -/
def stacksListE : List Commit → Except PyErr (List Int)
  | [] => .ok []
  | c :: l =>
    match c.stacks_height with
    | none => .error .typeError
    | some s =>
      match stacksListE l with
      | .error e => .error e
      | .ok l2 => .ok (s :: l2)

/-- Minimum of a nonempty list given its head. -/
def listFoldMin : Int → List Int → Int
  | a, [] => a
  | a, b :: l => listFoldMin (min a b) l

/-- Maximum of a nonempty list given its head. -/
def listFoldMax : Int → List Int → Int
  | a, [] => a
  | a, b :: l => listFoldMax (max a b) l

/-- The per-tip descent of get_score_to_common_ancestor: while the
pointer's stacks_height exceeds min_height, add
(burn_block_height - stacks_height) of the current pointer and advance
to commits.get(parent); a pointer that becomes None makes the next loop
condition raise AttributeError, a None stacks_height makes the
comparison raise TypeError, exactly as in Python. -/
def descend (m : CMap) : Nat → Int → Int → Commit → Except PyErr (Int × Commit)
  | 0, _, _, _ => .error .fuelOut
  | fuel + 1, minh, acc, c =>
    match c.stacks_height with
    | none => .error .typeError
    | some s =>
      if minh < s then
        match c.parent with
        | none => .error .attributeError
        | some p =>
          match lookupA m p with
          | none => .error .attributeError
          | some c2 => descend m fuel minh (acc + (c.burn_block_height - s)) c2
      else .ok (acc, c)

/-- Initialisation of one tip's score plus its descent: score starts at
(burn - stacks) times (max_height - stacks), read through the dict as in
the source, then the descent sum is accumulated onto it; the pair
(tip, pointer) is appended to tips_at_same_height. -/
def phase1Step (m : CMap) (fuel : Nat) (minh maxh : Int)
    (acc : Scores × List (Commit × Commit)) (t : Commit) :
    Except PyErr (Scores × List (Commit × Commit)) :=
  match lookupA m t.block_header_hash with
  | none => .error .keyError
  | some tc =>
    match tc.stacks_height with
    | none => .error .typeError
    | some ts =>
      match descend m fuel minh 0 t with
      | .error e => .error e
      | .ok (d, p) =>
        .ok (insertA acc.1 t.block_header_hash
              ((tc.burn_block_height - ts) * (maxh - ts) + d),
             acc.2 ++ [(t, p)])

/-- The first phase of get_score_to_common_ancestor over all tips. -/
def phase1 (m : CMap) (fuel : Nat) (minh maxh : Int) (tips : List Commit) :
    Except PyErr (Scores × List (Commit × Commit)) :=
  foldE (phase1Step m fuel minh maxh) ([], []) tips

/-- The advance of every walking pointer to commits.get(parent): none if
any pointer resolves to None (no common ancestor in the window). -/
def resolvePairs : List (Commit × Option Commit) → Option (List (Commit × Commit))
  | [] => some []
  | (_, none) :: _ => none
  | (t, some c) :: rest =>
    match resolvePairs rest with
    | none => none
    | some l => some ((t, c) :: l)

/-- scores[tip] += v: a missing key would raise KeyError. -/
def bumpScore (scores : Scores) (k : String) (v : Int) : Except PyErr Scores :=
  match lookupA scores k with
  | none => .error .keyError
  | some old => .ok (insertA scores k (old + v))

/-- The per-iteration score update of the trace-back loop, using the
already advanced pointers as the source does. -/
def addScores : Scores → List (Commit × Commit) → Except PyErr Scores
  | scores, [] => .ok scores
  | scores, (t, c) :: rest =>
    match c.stacks_height with
    | none => .error .typeError
    | some s =>
      match bumpScore scores t.block_header_hash (c.burn_block_height - s) with
      | .error e => .error e
      | .ok sc2 => addScores sc2 rest

/-- The trace-back loop of get_score_to_common_ancestor: stop with the
scores once every pointer equals the first one; otherwise advance all
pointers, return none (no prediction) if any became None, add the new
pointers' (burn - stacks) to the scores and repeat. -/
def lockstep (m : CMap) : Nat → List (Commit × Commit) → Scores → Except PyErr (Option Scores)
  | 0, _, _ => .error .fuelOut
  | _ + 1, [], scores => .ok (some scores)
  | fuel + 1, p :: ps, scores =>
    if (p :: ps).all (fun pc => decide (pc.2 = p.2)) then .ok (some scores)
    else
      match resolvePairs ((p :: ps).map (fun pc => (pc.1, pc.2.parent.bind (lookupA m)))) with
      | none => .ok none
      | some pairs2 =>
        match addScores scores pairs2 with
        | .error e => .error e
        | .ok sc2 => lockstep m fuel pairs2 sc2

/-- get_score_to_common_ancestor: none for an empty tip set; otherwise
initialise and descend every tip to the minimum stacks height, then
trace back in lock-step to a common ancestor.  Returns .ok none when the
source returns None and .ok (some scores) when it returns the scores. -/
def get_score_to_common_ancestor (fuel : Nat) (tips : List Commit) (m : CMap) :
    Except PyErr (Option Scores) :=
  match tips with
  | [] => .ok none
  | t :: rest =>
    match stacksListE (t :: rest) with
    | .error e => .error e
    | .ok sl =>
      let min_height := listFoldMin (sl.headD 0) sl.tail
      let max_height := listFoldMax (sl.headD 0) sl.tail
      match phase1 m fuel min_height max_height (t :: rest) with
      | .error e => .error e
      | .ok (scores, pairs) => lockstep m fuel pairs scores

/-- One step of the candidate collection in mark_next_tip: a
potential_tip commit joins the tip list when its stacks_height is at
least min_height (a None stacks_height makes the comparison raise). -/
def collectTipsStep (min_height : Int) (acc : List Commit) (c : Commit) :
    Except PyErr (List Commit) :=
  if c.potential_tip then
    match c.stacks_height with
    | none => .error .typeError
    | some s => if min_height ≤ s then .ok (acc ++ [c]) else .ok acc
  else .ok acc

/-- The candidate tips of mark_next_tip, in commit-map iteration order. -/
def collectTips (m : CMap) (min_height : Int) : Except PyErr (List Commit) :=
  foldE (collectTipsStep min_height) [] (m.map Prod.snd)

/-- Python min with a key function over the score items: scan left to
right, replacing the best only on a strictly smaller value, so an exact
tie keeps the earlier item. -/
def firstMinAux : (String × Int) → List (String × Int) → (String × Int)
  | best, [] => best
  | best, x :: xs => firstMinAux (if x.2 < best.2 then x else best) xs

/-- mark_next_tip: collect live candidate tips within max_fork_depth of
the canonical tip, score them, and when a non-empty score dict comes
back mark the minimum-score candidate as next_tip. -/
def mark_next_tip (fuel : Nat) (canonical_tip : String) (max_fork_depth : Int)
    (m : CMap) : Except PyErr CMap :=
  match lookupA m canonical_tip with
  | none => .error .keyError
  | some ctc =>
    match ctc.stacks_height with
    | none => .error .typeError
    | some csh =>
      match collectTips m (csh - max_fork_depth) with
      | .error e => .error e
      | .ok tips =>
        match get_score_to_common_ancestor fuel tips m with
        | .error e => .error e
        | .ok none => .ok m
        | .ok (some []) => .ok m
        | .ok (some (x :: xs)) =>
          let best := firstMinAux x xs
          match lookupA m best.1 with
          | none => .error .keyError
          | some c => .ok (insertA m best.1 { c with next_tip := true })

/-- The input record of compute_stats: the per-group accumulators
gathered by collect_stats. -/
structure StatsIn : Type where
  commits : Int
  wins : Int
  canonical : Int
  spend : Int
  btc_fees : Int
  coinbase_earned : Int
  fees_earned : Int
deriving DecidableEq, Repr

/-- The price-ratio output of compute_stats, with the two string
sentinels of the source made explicit and the formatted numeric case
carried as the exact rational the source formats. -/
inductive PriceRatio : Type where
  | ratio (q : ℚ)
  | zeroSentinel
  | infiniteSentinel
deriving DecidableEq, Repr

/-- The orphan_rate field of compute_stats:
(wins - canonical) / wins when wins > 0, else 0. -/
def orphan_rate (s : StatsIn) : ℚ :=
  if s.wins > 0 then ((s.wins : ℚ) - (s.canonical : ℚ)) / (s.wins : ℚ) else 0

/-- The price_ratio field of compute_stats: the formatted ratio
(spend + btc_fees) / (total_earned / 1000000) when total earnings are
positive, else the string 0 when spend is zero, else the infinity
sentinel.  Note the zero-spend test ignores btc_fees, as the source
does. -/
def price_ratio (s : StatsIn) : PriceRatio :=
  let total_earned := s.coinbase_earned + s.fees_earned
  if total_earned > 0 then
    .ratio (((s.spend : ℚ) + (s.btc_fees : ℚ)) / ((total_earned : ℚ) / 1000000))
  else if s.spend = 0 then .zeroSentinel
  else .infiniteSentinel

/-- How one commit entry can evolve under the per-round marking loop:
canonical, tip, parent, burn height and txid are untouched, and won is
never cleared.  The enrichment fields (stacks_height, potential_tip,
earnings, costs) may change. -/
def entryEvo (c c2 : Commit) : Prop :=
  c2.canonical = c.canonical ∧ c2.tip = c.tip ∧ c2.parent = c.parent ∧
  c2.burn_block_height = c.burn_block_height ∧ c2.txid = c.txid ∧
  (c.won = true → c2.won = true)

/-- Map evolution under the processing of one round at height h: every
entry evolves by entryEvo, entries of other rounds keep their
stacks_height, no entry appears or disappears, and the key list is
unchanged. -/
def mapEvoH (h : Int) (m m2 : CMap) : Prop :=
  (∀ q c0, lookupA m q = some c0 → ∃ c2, lookupA m2 q = some c2 ∧ entryEvo c0 c2 ∧
    (c0.burn_block_height ≠ h → c2.stacks_height = c0.stacks_height)) ∧
  (∀ q, lookupA m q = none → lookupA m2 q = none) ∧
  m2.map Prod.fst = m.map Prod.fst

/-- Map evolution under the processing of a list of round heights:
entries whose round is not in the list keep their stacks_height. -/
def mapEvoHs (hs : List Int) (m m2 : CMap) : Prop :=
  (∀ q c0, lookupA m q = some c0 → ∃ c2, lookupA m2 q = some c2 ∧ entryEvo c0 c2 ∧
    (c0.burn_block_height ∉ hs → c2.stacks_height = c0.stacks_height)) ∧
  (∀ q, lookupA m q = none → lookupA m2 q = none) ∧
  m2.map Prod.fst = m.map Prod.fst

/-- Iterated commits.get(parent) from a commit object: the reachability
notion matched by every walking pointer of the fork scorer. -/
def creach (m : CMap) : Nat → Commit → Option Commit
  | 0, c => some c
  | n + 1, c =>
    match c.parent with
    | none => none
    | some p =>
      match lookupA m p with
      | none => none
      | some c2 => creach m n c2

/-- One parent hop at the hash level, with the stopping behaviour of the
canonical walk: a falsy (empty) hash or a hash without an entry has no
successor. -/
def hopNext (m : CMap) (h : String) : Option String :=
  if h = "" then none
  else
    match lookupA m h with
    | none => none
    | some c => c.parent

/-- Iterated parent hops at the hash level: hopIter m n h is the hash
reached from h after n parent links inside the map. -/
def hopIter (m : CMap) : Nat → String → Option String
  | 0, h => some h
  | n + 1, h =>
    match hopNext m h with
    | none => none
    | some h2 => hopIter m n h2

/-- Spec-side formulation for the fork-score descent (claim C5): the
chain of walking pointers with stacks_height above min_height, from the
candidate itself down, together with the final pointer at or below
min_height; none when the chain leaves the window or heights are
unresolved. -/
def specDescentChain (m : CMap) (minh : Int) : Nat → Commit → Option (List Commit × Commit)
  | 0, _ => none
  | fuel + 1, c =>
    match c.stacks_height with
    | none => none
    | some s =>
      if minh < s then
        match c.parent with
        | none => none
        | some p =>
          match lookupA m p with
          | none => none
          | some c2 =>
            match specDescentChain m minh fuel c2 with
            | none => none
            | some (l, q) => some (c :: l, q)
      else some ([], c)

/-- Spec-side formulation for claim C5: the total penalty added along a
descent chain, each step contributing burn_height minus resolved
height. -/
def specWalkSum (l : List Commit) : Int :=
  (l.map (fun c => c.burn_block_height - c.stacks_height.getD 0)).sum

/-- A placeholder commit used as the trivial common ancestor of an
empty candidate set. -/
def dummyCommit : Commit :=
  { block_header_hash := "", txid := "", sender := "",
    burn_block_height := 0, spend := 0, sortition_id := "" }

/-- Example candidate tip at stacks height 5 with no resolved parent. -/
def cexTipA : Commit :=
  { block_header_hash := "a", txid := "ta", sender := "x", burn_block_height := 100,
    spend := 5, sortition_id := "s1", stacks_height := some 5, potential_tip := true }

/-- Example candidate tip at stacks height 3 with no resolved parent. -/
def cexTipB : Commit :=
  { block_header_hash := "b", txid := "tb", sender := "y", burn_block_height := 101,
    spend := 7, sortition_id := "s2", stacks_height := some 3, potential_tip := true }

/-- Example graph holding the two rootless candidate tips of unequal
stacks height: the descent from the taller tip walks off the window. -/
def cexMapAB : CMap := [("a", cexTipA), ("b", cexTipB)]

/-- Example candidate tip at stacks height 5, a window root. -/
def witTipA : Commit :=
  { block_header_hash := "a", txid := "ta", sender := "x", burn_block_height := 100,
    spend := 5, sortition_id := "s1", stacks_height := some 5, potential_tip := true }

/-- Second example candidate tip, also at stacks height 5, a window
root: the two tips have no common ancestor inside the window. -/
def witTipB : Commit :=
  { block_header_hash := "b", txid := "tb", sender := "y", burn_block_height := 101,
    spend := 7, sortition_id := "s2", stacks_height := some 5, potential_tip := true }

/-- Example graph holding the two rootless equal-height tips. -/
def witMapAB : CMap := [("a", witTipA), ("b", witTipB)]

/-- A candidate tip at the minimum resolved height 3 (no descent). -/
def c5T1 : Commit :=
  { block_header_hash := "t1", txid := "x1", sender := "m1", burn_block_height := 100,
    spend := 1, sortition_id := "s1", stacks_height := some 3, potential_tip := true }

/-- A candidate tip at resolved height 5 whose descent crosses two
ancestors before reaching height 3. -/
def c5T2 : Commit :=
  { block_header_hash := "t2", txid := "x2", sender := "m2", burn_block_height := 104,
    spend := 1, sortition_id := "s2", parent := some "p4",
    stacks_height := some 5, potential_tip := true }

/-- Ancestor of c5T2 at resolved height 4. -/
def c5P4 : Commit :=
  { block_header_hash := "p4", txid := "x3", sender := "m3", burn_block_height := 103,
    spend := 1, sortition_id := "s3", parent := some "p3", stacks_height := some 4 }

/-- Ancestor of c5T2 at the minimum resolved height 3. -/
def c5P3 : Commit :=
  { block_header_hash := "p3", txid := "x4", sender := "m4", burn_block_height := 101,
    spend := 1, sortition_id := "s4", stacks_height := some 3 }

/-- The graph for the C5 scoring example. -/
def c5Map : CMap := [("t1", c5T1), ("t2", c5T2), ("p4", c5P4), ("p3", c5P3)]

/-- A lone live candidate tip for the next-tip marking example. -/
def c6Tip : Commit :=
  { block_header_hash := "a", txid := "ta", sender := "x", burn_block_height := 100,
    spend := 5, sortition_id := "s1", stacks_height := some 5, potential_tip := true }

/-- The graph holding only the lone candidate tip. -/
def c6Map : CMap := [("a", c6Tip)]

/-- Round-10 winning commit of the two-round marking example. -/
def c3A0 : Commit :=
  { block_header_hash := "a", txid := "ta", sender := "sa", burn_block_height := 10,
    spend := 5, sortition_id := "s10", parent := none }

/-- Round-11 winning commit, child of c3A0 and the declared tip. -/
def c3B0 : Commit :=
  { block_header_hash := "b", txid := "tb", sender := "sb", burn_block_height := 11,
    spend := 6, sortition_id := "s11", parent := some "a" }

/-- The two-round input graph for the marking example. -/
def c3Map : CMap := [("a", c3A0), ("b", c3B0)]

/-- Chain data for the marking example: both rounds processed with
present payments rows, no block_headers rows, tip b at height 11. -/
def c3Chain : ChainData :=
  { snapshots := fun h =>
      if h = 10 then some ⟨"ta", 1, "cha", "unused"⟩
      else if h = 11 then some ⟨"tb", 2, "chb", "b"⟩
      else none
    payments := fun ch =>
      if ch = "cha" then some ⟨"bha", 100, 1, 2⟩
      else if ch = "chb" then some ⟨"bhb", 200, 3, 4⟩
      else none
    block_headers := fun _ => none }

/-- c3A0 after marking: won and canonical, enriched from payments, its
potential_tip cleared by its winning child. -/
def c3FinalA : Commit :=
  { block_header_hash := "a", txid := "ta", sender := "sa", burn_block_height := 10,
    spend := 5, sortition_id := "s10", parent := none, stacks_height := some 1,
    block_hash := some "bha", won := true, canonical := true, tip := false,
    coinbase_earned := 100, fees_earned := 3, potential_tip := false }

/-- c3B0 after marking: the won, canonical, flagged tip. -/
def c3FinalB : Commit :=
  { block_header_hash := "b", txid := "tb", sender := "sb", burn_block_height := 11,
    spend := 6, sortition_id := "s11", parent := some "a", stacks_height := some 2,
    block_hash := some "bhb", won := true, canonical := true, tip := true,
    coinbase_earned := 200, fees_earned := 7, potential_tip := true }

/-- Round-10 non-winning root commit: its stacks_height is never
resolved. -/
def c7P : Commit :=
  { block_header_hash := "p", txid := "tp", sender := "sp", burn_block_height := 10,
    spend := 1, sortition_id := "s10", parent := none }

/-- Round-11 non-winning child of c7P. -/
def c7C : Commit :=
  { block_header_hash := "c", txid := "tc", sender := "sc", burn_block_height := 11,
    spend := 1, sortition_id := "s11", parent := some "p" }

/-- The parent commit with a resolved height, for the repaired
non-winner update. -/
def c7P2 : Commit := { c7P with stacks_height := some 3 }

/-- Chain data where neither round's declared winner matches any loaded
commit: both commits take the non-winner branch. -/
def c7Chain : ChainData :=
  { snapshots := fun h =>
      if h = 10 then some ⟨"w", 0, "ch10", "x"⟩
      else if h = 11 then some ⟨"w", 0, "ch11", "x"⟩
      else none
    payments := fun _ => none
    block_headers := fun _ => none }

/-! ### Association-list lemmas -/

theorem lookupA_insertA_self {α β : Type} [DecidableEq α] (m : List (α × β)) (k : α) (v : β) :
    lookupA (insertA m k v) k = some v := by
  induction m with
  | nil => simp [insertA, lookupA]
  | cons p t ih =>
    by_cases h : p.1 = k
    · simp [insertA, h, lookupA]
    · simp only [insertA]
      rw [if_neg h]
      simp only [lookupA]
      rw [if_neg h, ih]

theorem lookupA_insertA_ne {α β : Type} [DecidableEq α] (m : List (α × β)) (k a : α) (v : β)
    (h : a ≠ k) : lookupA (insertA m k v) a = lookupA m a := by
  induction m with
  | nil =>
    simp only [insertA, lookupA]
    rw [if_neg (Ne.symm h)]
  | cons p t ih =>
    by_cases hk : p.1 = k
    · simp only [insertA]
      rw [if_pos hk]
      simp only [lookupA]
      have h2 : ¬ p.1 = a := fun hpa => h (hpa.symm.trans hk)
      rw [if_neg h2, if_neg h2]
    · simp only [insertA]
      rw [if_neg hk]
      simp only [lookupA]
      by_cases ha : p.1 = a
      · rw [if_pos ha, if_pos ha]
      · rw [if_neg ha, if_neg ha, ih]

theorem lookupA_eq_none_iff {α β : Type} [DecidableEq α] (m : List (α × β)) (a : α) :
    lookupA m a = none ↔ a ∉ m.map Prod.fst := by
  induction m with
  | nil => simp [lookupA]
  | cons p t ih =>
    by_cases h : p.1 = a
    · simp [lookupA, h]
    · simp only [lookupA]
      rw [if_neg h]
      simp only [List.map_cons, List.mem_cons]
      rw [ih]
      constructor
      · intro hn hmem
        rcases hmem with hmem | hmem
        · exact h hmem.symm
        · exact hn hmem
      · intro hn hmem
        exact hn (Or.inr hmem)

theorem lookupA_isSome_iff {α β : Type} [DecidableEq α] (m : List (α × β)) (a : α) :
    (lookupA m a).isSome ↔ a ∈ m.map Prod.fst := by
  rcases hl : lookupA m a with _ | v
  · simpa using (lookupA_eq_none_iff m a).mp hl
  · simp only [Option.isSome_some, true_iff]
    by_contra hmem
    rw [← lookupA_eq_none_iff] at hmem
    rw [hl] at hmem
    exact Option.noConfusion hmem

/-! ### Claim C4 -/

/-- Claim C4 counterexample: at a stats record with zero PoX spend, five
satoshis of bitcoin fees and zero earnings, compute_stats yields the
zero sentinel, not the infinite sentinel the claim requires for non-zero
btc-fees with zero earnings. -/
theorem C4_counterexample :
    price_ratio ⟨1, 0, 0, 0, 5, 0, 0⟩ = PriceRatio.zeroSentinel ∧
    (5 : Int) ≠ 0 ∧
    price_ratio ⟨1, 0, 0, 0, 5, 0, 0⟩ ≠ PriceRatio.infiniteSentinel := by
  refine ⟨by decide, by decide, by decide⟩

/-- Claim C4 (amended): per-group orphan rate is (wins - canonical) /
wins when wins > 0 and 0 when wins = 0; the price ratio is the infinite
sentinel when total earnings are zero and PoX spend is non-zero, and the
zero sentinel when total earnings and PoX spend are both zero, in both
cases regardless of btc_fees. -/
theorem C4_stats_fields (s : StatsIn) :
    (s.wins = 0 → orphan_rate s = 0) ∧
    (0 < s.wins → orphan_rate s = ((s.wins : ℚ) - (s.canonical : ℚ)) / (s.wins : ℚ)) ∧
    (s.coinbase_earned + s.fees_earned = 0 → s.spend ≠ 0 →
      price_ratio s = PriceRatio.infiniteSentinel) ∧
    (s.coinbase_earned + s.fees_earned = 0 → s.spend = 0 →
      price_ratio s = PriceRatio.zeroSentinel) := by
  refine ⟨?_, ?_, ?_, ?_⟩
  · intro h
    simp [orphan_rate, h]
  · intro h
    simp [orphan_rate, h]
  · intro h hs
    simp [price_ratio, h, hs]
  · intro h hs
    simp [price_ratio, h, hs]

/-- Witness for C4_stats_fields at the all-zero record. -/
theorem C4_stats_fields_witness :
    orphan_rate ⟨0, 0, 0, 0, 0, 0, 0⟩ = 0 ∧
    price_ratio ⟨0, 0, 0, 0, 0, 0, 0⟩ = PriceRatio.zeroSentinel :=
  ⟨(C4_stats_fields _).1 rfl, (C4_stats_fields _).2.2.2 rfl rfl⟩

/-! ### Claim C2 -/

/-- Claim C2 failing input: a window with a single fully-processed round
whose winner has no payments row.  The local block_hash variable of
mark_canonical_blocks was never assigned, so the block_headers query
raises UnboundLocalError and the run aborts instead of continuing with
zeroed enrichment fields. -/
theorem C2_missing_payment_aborts :
    mark_canonical_blocks 10
      ⟨fun h => if h = 10 then some ⟨"tw", 5, "ch", "w"⟩ else none,
       fun _ => none,
       fun _ => none⟩
      [("w", Commit.build "w" "tw" "qsq" 10 100 "s10" none)]
      10 = .error .unboundLocal := by rfl

/-! ### Claim C8 -/

/-- The sortition_sats accumulator after folding the scan over any
initial state: existing totals are extended by the spends of the scanned
records of that round, and a round id is absent exactly when it is
absent both initially and from the scanned records. -/
theorem sats_fold (rows : List RawCommit) (st : BState) (sid : String) :
    ((lookupA (rows.foldl buildStep st).sortition_sats sid).getD 0 =
      (lookupA st.sortition_sats sid).getD 0 +
        ((rows.filter fun r => r.sortition_id = sid).map RawCommit.burn_fee).sum) ∧
    ((lookupA (rows.foldl buildStep st).sortition_sats sid = none) ↔
      (lookupA st.sortition_sats sid = none ∧ sid ∉ rows.map RawCommit.sortition_id)) := by
  induction rows generalizing st with
  | nil => simp
  | cons r rest ih =>
    have step_sats : (buildStep st r).sortition_sats =
        insertA st.sortition_sats r.sortition_id
          ((lookupA st.sortition_sats r.sortition_id).getD 0 + r.burn_fee) := rfl
    rcases ih (buildStep st r) with ⟨ih1, ih2⟩
    by_cases hs : r.sortition_id = sid
    · subst hs
      constructor
      · rw [List.foldl_cons, ih1, step_sats, lookupA_insertA_self]
        have hf : List.filter (fun x => decide (x.sortition_id = r.sortition_id)) (r :: rest) =
            r :: List.filter (fun x => decide (x.sortition_id = r.sortition_id)) rest := by
          simp
        rw [hf]
        simp only [List.map_cons, List.sum_cons, Option.getD_some]
        ring
      · rw [List.foldl_cons, ih2, step_sats, lookupA_insertA_self]
        simp
    · constructor
      · rw [List.foldl_cons, ih1, step_sats,
          lookupA_insertA_ne _ _ _ _ (fun h => hs h.symm)]
        have hf : List.filter (fun x => decide (x.sortition_id = sid)) (r :: rest) =
            List.filter (fun x => decide (x.sortition_id = sid)) rest := by
          simp [hs]
        rw [hf]
      · rw [List.foldl_cons, ih2, step_sats,
          lookupA_insertA_ne _ _ _ _ (fun h => hs h.symm)]
        simp only [List.map_cons, List.mem_cons]
        constructor
        · intro h
          exact ⟨h.1, fun hmem => h.2 (hmem.resolve_left (fun he => hs he.symm))⟩
        · intro h
          exact ⟨h.1, fun hmem => h.2 (Or.inr hmem)⟩

/-- Claim C8: after graph construction, the aggregated spend recorded
for any round id equals the sum of the burn fees of exactly the scanned
records carrying that round id, and a round id has an aggregate entry
exactly when some scanned record carries it. -/
theorem C8_round_spend (rows : List RawCommit) (sid : String) :
    ((lookupA (get_block_commits_with_parents rows).2 sid).getD 0 =
      ((rows.filter fun r => r.sortition_id = sid).map RawCommit.burn_fee).sum) ∧
    ((lookupA (get_block_commits_with_parents rows).2 sid = none) ↔
      sid ∉ rows.map RawCommit.sortition_id) := by
  have h := sats_fold rows ⟨[], [], []⟩ sid
  simp only [get_block_commits_with_parents]
  constructor
  · rw [h.1]
    simp [lookupA]
  · rw [h.2]
    simp [lookupA]

/-! ### Claim C10 -/

/-- Every commit in the map produced by the scan fold was either already
in the initial state or was built by Commit.build from one of the
scanned records, so its sender carries the quote-stripped identity and
its enrichment fields are still at their defaults. -/
theorem built_commit_src (rows : List RawCommit) (st : BState) (k : String) (c : Commit)
    (h : lookupA (rows.foldl buildStep st).commits k = some c) :
    lookupA st.commits k = some c ∨
      ∃ r ∈ rows, r.block_header_hash = k ∧
        c.sender = pyStripEnds r.apparent_sender ∧
        c.burn_block_height = r.block_height ∧ c.txid = r.txid ∧
        c.spend = r.burn_fee ∧ c.sortition_id = r.sortition_id ∧
        c.block_header_hash = r.block_header_hash ∧
        c.stacks_height = none ∧ c.won = false ∧ c.canonical = false ∧
        c.tip = false ∧ c.potential_tip = false ∧ c.next_tip = false := by
  induction rows generalizing st with
  | nil => exact Or.inl h
  | cons r rest ih =>
    rw [List.foldl_cons] at h
    rcases ih (buildStep st r) h with hbase | hfound
    · by_cases hk : r.block_header_hash = k
      · subst hk
        have hself : lookupA (buildStep st r).commits r.block_header_hash =
            some (Commit.build r.block_header_hash r.txid r.apparent_sender
              r.block_height r.burn_fee r.sortition_id
              (lookupA st.parent_hashes (r.parent_block_ptr, r.parent_vtxindex))) :=
          lookupA_insertA_self _ _ _
        rw [hbase] at hself
        refine Or.inr ⟨r, List.mem_cons_self _ _, rfl, ?_⟩
        rcases Option.some.inj hself with rfl
        exact ⟨rfl, rfl, rfl, rfl, rfl, rfl, rfl, rfl, rfl, rfl, rfl, rfl⟩
      · left
        have hne : lookupA (buildStep st r).commits k = lookupA st.commits k :=
          lookupA_insertA_ne _ _ _ _ (fun he => hk he.symm)
        rw [← hne]
        exact hbase
    · rcases hfound with ⟨r2, hr2, hrest⟩
      exact Or.inr ⟨r2, List.mem_cons_of_mem _ hr2, hrest⟩

/-- Claim C10: every Commit stored by the graph builder carries as its
sender the raw apparent_sender of its originating record with the first
and last characters removed, and consequently the registry lookups
(name, group) for that Commit are keyed by the stripped identity. -/
theorem C10_sender_stripped (rows : List RawCommit) (k : String) (c : Commit)
    (h : lookupA (get_block_commits_with_parents rows).1 k = some c) :
    ∃ r ∈ rows, r.block_header_hash = k ∧
      c.sender = pyStripEnds r.apparent_sender ∧
      ∀ cfg : MinerConfig,
        get_miner_name cfg c.sender = get_miner_name cfg (pyStripEnds r.apparent_sender) ∧
        get_miner_group cfg c.sender = get_miner_group cfg (pyStripEnds r.apparent_sender) := by
  have h2 := built_commit_src rows ⟨[], [], []⟩ k c h
  rcases h2 with hbase | ⟨r, hr, hk, hsender, _⟩
  · exact absurd hbase (by simp [lookupA])
  · exact ⟨r, hr, hk, hsender, fun cfg => by rw [hsender]; exact ⟨rfl, rfl⟩⟩

/-- Witness for C10_sender_stripped: a single record whose quoted sender
qAliceq is stored stripped to Alice. -/
theorem C10_sender_stripped_witness :
    ∃ r ∈ [(⟨"h1", "t1", "qAliceq", "s1", 0, 10, 100, 9, 0⟩ : RawCommit)],
      r.block_header_hash = "h1" ∧
      (Commit.build "h1" "t1" "qAliceq" 10 100 "s1" none).sender =
        pyStripEnds r.apparent_sender ∧
      ∀ cfg : MinerConfig,
        get_miner_name cfg (Commit.build "h1" "t1" "qAliceq" 10 100 "s1" none).sender =
          get_miner_name cfg (pyStripEnds r.apparent_sender) ∧
        get_miner_group cfg (Commit.build "h1" "t1" "qAliceq" 10 100 "s1" none).sender =
          get_miner_group cfg (pyStripEnds r.apparent_sender) :=
  C10_sender_stripped [⟨"h1", "t1", "qAliceq", "s1", 0, 10, 100, 9, 0⟩] "h1"
    (Commit.build "h1" "t1" "qAliceq" 10 100 "s1" none) (by rfl)

/-! ### Claim C9 -/

/-- The scan-fold invariant behind acyclicity: given fresh, pairwise
distinct record hashes whose declared parent height lies strictly below
the record height, every index entry resolves to a stored commit at
exactly the registering height, and every stored commit's parent link
resolves to a stored commit of strictly smaller burn height. -/
theorem build_inv (rows : List RawCommit) (st : BState) (H : List String)
    (hptr : ∀ r ∈ rows, r.parent_block_ptr < r.block_height)
    (hnodup : (rows.map RawCommit.block_header_hash).Nodup)
    (hdisj : ∀ r ∈ rows, r.block_header_hash ∉ H)
    (hkeys : ∀ k, (lookupA st.commits k).isSome → k ∈ H)
    (hph : ∀ hp vt x, lookupA st.parent_hashes (hp, vt) = some x →
      x ∈ H ∧ ∃ cx, lookupA st.commits x = some cx ∧ cx.burn_block_height = hp)
    (hpar : ∀ k c p, lookupA st.commits k = some c → c.parent = some p →
      ∃ cp, lookupA st.commits p = some cp ∧
        cp.burn_block_height < c.burn_block_height) :
    (∀ k, (lookupA (rows.foldl buildStep st).commits k).isSome →
      k ∈ H ++ rows.map RawCommit.block_header_hash) ∧
    (∀ hp vt x, lookupA (rows.foldl buildStep st).parent_hashes (hp, vt) = some x →
      x ∈ H ++ rows.map RawCommit.block_header_hash ∧
      ∃ cx, lookupA (rows.foldl buildStep st).commits x = some cx ∧
        cx.burn_block_height = hp) ∧
    (∀ k c p, lookupA (rows.foldl buildStep st).commits k = some c → c.parent = some p →
      ∃ cp, lookupA (rows.foldl buildStep st).commits p = some cp ∧
        cp.burn_block_height < c.burn_block_height) := by
  induction rows generalizing st H with
  | nil =>
    simpa using ⟨hkeys, hph, hpar⟩
  | cons r rest ih =>
    have hfresh : r.block_header_hash ∉ H := hdisj r (List.mem_cons_self _ _)
    have hcom : (buildStep st r).commits = insertA st.commits r.block_header_hash
        (Commit.build r.block_header_hash r.txid r.apparent_sender
          r.block_height r.burn_fee r.sortition_id
          (lookupA st.parent_hashes (r.parent_block_ptr, r.parent_vtxindex))) := rfl
    have hphs : (buildStep st r).parent_hashes =
        insertA st.parent_hashes (r.block_height, r.vtxindex) r.block_header_hash := rfl
    have hkeys2 : ∀ k, (lookupA (buildStep st r).commits k).isSome →
        k ∈ H ++ [r.block_header_hash] := by
      intro k hk
      rw [hcom] at hk
      by_cases he : k = r.block_header_hash
      · simp [he]
      · rw [lookupA_insertA_ne _ _ _ _ he] at hk
        exact List.mem_append_left _ (hkeys k hk)
    have hph2 : ∀ hp vt x, lookupA (buildStep st r).parent_hashes (hp, vt) = some x →
        x ∈ H ++ [r.block_header_hash] ∧
        ∃ cx, lookupA (buildStep st r).commits x = some cx ∧
          cx.burn_block_height = hp := by
      intro hp vt x hx
      rw [hphs] at hx
      by_cases he : (hp, vt) = ((r.block_height, r.vtxindex) : Int × Int)
      · rw [he, lookupA_insertA_self] at hx
        rcases Option.some.inj hx with rfl
        have hhp : hp = r.block_height := congrArg Prod.fst he
        refine ⟨List.mem_append_right _ (List.mem_singleton_self _), ?_⟩
        refine ⟨Commit.build r.block_header_hash r.txid r.apparent_sender
          r.block_height r.burn_fee r.sortition_id
          (lookupA st.parent_hashes (r.parent_block_ptr, r.parent_vtxindex)), ?_, ?_⟩
        · rw [hcom]
          exact lookupA_insertA_self _ _ _
        · exact hhp.symm
      · rw [lookupA_insertA_ne _ _ _ _ he] at hx
        rcases hph hp vt x hx with ⟨hxH, cx, hcx, hburn⟩
        refine ⟨List.mem_append_left _ hxH, cx, ?_, hburn⟩
        rw [hcom, lookupA_insertA_ne _ _ _ _ (fun hex => hfresh (by rw [← hex]; exact hxH))]
        exact hcx
    have hpar2 : ∀ k c p, lookupA (buildStep st r).commits k = some c →
        c.parent = some p →
        ∃ cp, lookupA (buildStep st r).commits p = some cp ∧
          cp.burn_block_height < c.burn_block_height := by
      intro k c p hk hp
      rw [hcom] at hk
      by_cases he : k = r.block_header_hash
      · subst he
        rw [lookupA_insertA_self] at hk
        rcases Option.some.inj hk with rfl
        simp only [Commit.build] at hp
        rcases hph _ _ _ hp with ⟨hpH, cp, hcp, hburn⟩
        refine ⟨cp, ?_, ?_⟩
        · rw [hcom, lookupA_insertA_ne _ _ _ _ (fun hex => hfresh (by rw [← hex]; exact hpH))]
          exact hcp
        · simp only [Commit.build]
          rw [hburn]
          exact hptr r (List.mem_cons_self _ _)
      · rw [lookupA_insertA_ne _ _ _ _ he] at hk
        rcases hpar k c p hk hp with ⟨cp, hcp, hburn⟩
        have hpH : p ∈ H := hkeys p (by rw [hcp]; rfl)
        refine ⟨cp, ?_, hburn⟩
        rw [hcom, lookupA_insertA_ne _ _ _ _ (fun hex => hfresh (by rw [← hex]; exact hpH))]
        exact hcp
    have ihres := ih (buildStep st r) (H ++ [r.block_header_hash])
      (fun r2 hr2 => hptr r2 (List.mem_cons_of_mem _ hr2))
      ((List.nodup_cons.mp hnodup).2)
      (by
        intro r2 hr2
        simp only [List.mem_append, List.mem_singleton]
        rintro (hin | hin)
        · exact hdisj r2 (List.mem_cons_of_mem _ hr2) hin
        · exact (List.nodup_cons.mp hnodup).1 (hin ▸ List.mem_map_of_mem RawCommit.block_header_hash hr2))
      hkeys2 hph2 hpar2
    rw [List.foldl_cons]
    simpa [List.append_assoc] using ihres

/-- The successor unfolding of creach as an Option bind. -/
theorem creach_succ (m : CMap) (n : Nat) (c : Commit) :
    creach m (n + 1) c = (c.parent.bind (lookupA m)).bind (creach m n) := by
  rcases hpp : c.parent with _ | p
  · simp [creach, hpp]
  · rcases hlp : lookupA m p with _ | c2 <;> simp [creach, hpp, hlp]

/-- Burn height is a strict variant along parent links: after n hops
from a stored commit the burn height has dropped by at least n. -/
theorem creach_burn_drop (m : CMap)
    (hpar : ∀ k c p, lookupA m k = some c → c.parent = some p →
      ∃ cp, lookupA m p = some cp ∧ cp.burn_block_height < c.burn_block_height) :
    ∀ n (c d : Commit), (∃ k, lookupA m k = some c) → creach m n c = some d →
      d.burn_block_height + n ≤ c.burn_block_height := by
  intro n
  induction n with
  | zero =>
    intro c d _ hc
    rcases Option.some.inj hc with rfl
    simp
  | succ n ih =>
    intro c d hk hc
    rcases hk with ⟨k, hk⟩
    rw [creach_succ] at hc
    rcases hpp : c.parent with _ | p
    · rw [hpp] at hc
      exact absurd hc (by simp)
    · rw [hpp] at hc
      simp only [Option.some_bind] at hc
      rcases hlp : lookupA m p with _ | cp
      · rw [hlp] at hc
        exact absurd hc (by simp)
      · rw [hlp] at hc
        simp only [Option.some_bind] at hc
        rcases hpar k c p hk hpp with ⟨cp2, hcp2, hburn⟩
        rw [hlp] at hcp2
        rcases Option.some.inj hcp2 with rfl
        have := ih cp d ⟨p, hlp⟩ hc
        omega

/-- Parent chains from stored commits reach a root (parent = none)
within a number of hops bounded by the height range of the window. -/
theorem chain_bound (m : CMap) (lo : Int)
    (hpar : ∀ k c p, lookupA m k = some c → c.parent = some p →
      ∃ cp, lookupA m p = some cp ∧ cp.burn_block_height < c.burn_block_height)
    (hht : ∀ k c, lookupA m k = some c → lo ≤ c.burn_block_height) :
    ∀ b : Nat, ∀ k c, lookupA m k = some c → (c.burn_block_height - lo).toNat ≤ b →
      ∃ n ≤ b, ∃ root, creach m n c = some root ∧ root.parent = none := by
  intro b
  induction b with
  | zero =>
    intro k c hk hb
    rcases hpp : c.parent with _ | p
    · exact ⟨0, le_refl _, c, rfl, hpp⟩
    · rcases hpar k c p hk hpp with ⟨cp, hcp, hburn⟩
      have h1 := hht p cp hcp
      have h2 := hht k c hk
      omega
  | succ b ih =>
    intro k c hk hb
    rcases hpp : c.parent with _ | p
    · exact ⟨0, Nat.zero_le _, c, rfl, hpp⟩
    · rcases hpar k c p hk hpp with ⟨cp, hcp, hburn⟩
      have h1 := hht p cp hcp
      rcases ih p cp hcp (by omega) with ⟨n, hn, root, hroot, hrp⟩
      refine ⟨n + 1, by omega, root, ?_, hrp⟩
      simp only [creach, hpp, hcp]
      exact hroot

/-- Claim C9: in a graph built from well-formed input (records scanned
ascending by height, pairwise distinct hashes, declared parent height
strictly below the record height, heights inside the window), every
resolved parent has strictly smaller burn height than its child, every
parent chain reaches a root commit with no resolved parent within the
window span many hops, and no parent cycle exists. -/
theorem C9_parent_chains_terminate (rows : List RawCommit) (lo hi : Int)
    (_hasc : rows.Pairwise (fun a b => a.block_height ≤ b.block_height))
    (hptr : ∀ r ∈ rows, r.parent_block_ptr < r.block_height)
    (hnodup : (rows.map RawCommit.block_header_hash).Nodup)
    (hwin : ∀ r ∈ rows, lo ≤ r.block_height ∧ r.block_height ≤ hi) :
    (∀ k c p, lookupA (get_block_commits_with_parents rows).1 k = some c →
      c.parent = some p →
      ∃ cp, lookupA (get_block_commits_with_parents rows).1 p = some cp ∧
        cp.burn_block_height < c.burn_block_height) ∧
    (∀ k c, lookupA (get_block_commits_with_parents rows).1 k = some c →
      ∃ n ≤ (hi - lo).toNat, ∃ root,
        creach (get_block_commits_with_parents rows).1 n c = some root ∧
        root.parent = none) ∧
    (∀ k c n, lookupA (get_block_commits_with_parents rows).1 k = some c →
      creach (get_block_commits_with_parents rows).1 (n + 1) c = some c → False) := by
  have hinv := build_inv rows ⟨[], [], []⟩ []
    hptr hnodup (by simp)
    (by intro k hk; simp [lookupA] at hk)
    (by intro hp vt x hx; simp [lookupA] at hx)
    (by intro k c p hk; simp [lookupA] at hk)
  have hpar := hinv.2.2
  have hht : ∀ k c, lookupA (get_block_commits_with_parents rows).1 k = some c →
      lo ≤ c.burn_block_height ∧ c.burn_block_height ≤ hi := by
    intro k c hk
    rcases built_commit_src rows ⟨[], [], []⟩ k c hk with hbase | ⟨r, hr, _, _, hburn, _⟩
    · exact absurd hbase (by simp [lookupA])
    · rw [hburn]
      exact hwin r hr
  refine ⟨hpar, ?_, ?_⟩
  · intro k c hk
    exact chain_bound _ lo hpar (fun k c h => (hht k c h).1) ((hi - lo).toNat) k c hk
      (by have := hht k c hk; omega)
  · intro k c n hk hcy
    have := creach_burn_drop _ hpar (n + 1) c c ⟨k, hk⟩ hcy
    omega

/-- Witness for C9_parent_chains_terminate: a two-record window, the
second record's parent resolving to the first. -/
theorem C9_parent_chains_terminate_witness :
    (∀ k c p, lookupA (get_block_commits_with_parents
        [⟨"a", "ta", "qxq", "s1", 0, 10, 5, 9, 0⟩,
         ⟨"b", "tb", "qyq", "s2", 0, 11, 7, 10, 0⟩]).1 k = some c →
      c.parent = some p →
      ∃ cp, lookupA (get_block_commits_with_parents
        [⟨"a", "ta", "qxq", "s1", 0, 10, 5, 9, 0⟩,
         ⟨"b", "tb", "qyq", "s2", 0, 11, 7, 10, 0⟩]).1 p = some cp ∧
        cp.burn_block_height < c.burn_block_height) ∧
    (∀ k c, lookupA (get_block_commits_with_parents
        [⟨"a", "ta", "qxq", "s1", 0, 10, 5, 9, 0⟩,
         ⟨"b", "tb", "qyq", "s2", 0, 11, 7, 10, 0⟩]).1 k = some c →
      ∃ n ≤ ((11 : Int) - 10).toNat, ∃ root,
        creach (get_block_commits_with_parents
          [⟨"a", "ta", "qxq", "s1", 0, 10, 5, 9, 0⟩,
           ⟨"b", "tb", "qyq", "s2", 0, 11, 7, 10, 0⟩]).1 n c = some root ∧
        root.parent = none) ∧
    (∀ k c n, lookupA (get_block_commits_with_parents
        [⟨"a", "ta", "qxq", "s1", 0, 10, 5, 9, 0⟩,
         ⟨"b", "tb", "qyq", "s2", 0, 11, 7, 10, 0⟩]).1 k = some c →
      creach (get_block_commits_with_parents
        [⟨"a", "ta", "qxq", "s1", 0, 10, 5, 9, 0⟩,
         ⟨"b", "tb", "qyq", "s2", 0, 11, 7, 10, 0⟩]).1 (n + 1) c = some c → False) :=
  C9_parent_chains_terminate
    [⟨"a", "ta", "qxq", "s1", 0, 10, 5, 9, 0⟩,
     ⟨"b", "tb", "qyq", "s2", 0, 11, 7, 10, 0⟩] 10 11
    (by decide) (by decide) (by decide) (by decide)

/-! ### Claim C1 -/

/-- One creach hop is exactly commits.get(parent). -/
theorem creach_one (m : CMap) (c : Commit) :
    creach m 1 c = c.parent.bind (lookupA m) := by
  rw [creach_succ]
  rcases c.parent.bind (lookupA m) with _ | c2
  · rfl
  · rfl

/-- creach composes additively. -/
theorem creach_compose (m : CMap) :
    ∀ (n1 n2 : Nat) (c d e : Commit), creach m n1 c = some d →
      creach m n2 d = some e → creach m (n1 + n2) c = some e := by
  intro n1
  induction n1 with
  | zero =>
    intro n2 c d e h1 h2
    rcases Option.some.inj h1 with rfl
    rw [Nat.zero_add]
    exact h2
  | succ n1 ih =>
    intro n2 c d e h1 h2
    rw [creach_succ] at h1
    rcases hstep : c.parent.bind (lookupA m) with _ | c2
    · rw [hstep] at h1
      exact absurd h1 (by simp)
    · rw [hstep] at h1
      simp only [Option.some_bind] at h1
      have := ih n2 c2 d e h1 h2
      have harr : n1 + 1 + n2 = (n1 + n2) + 1 := by omega
      rw [harr, creach_succ, hstep]
      simpa using this

/-- A commit with no resolved parent is the only commit creach can
reach from itself. -/
theorem creach_root_fixed (m : CMap) (c : Commit) (hc : c.parent = none) :
    ∀ (n : Nat) (a : Commit), creach m n c = some a → a = c := by
  intro n a h
  cases n with
  | zero => exact (Option.some.inj h).symm
  | succ n =>
    rw [creach_succ, hc] at h
    exact absurd h (by simp)

/-- The final pointer of the descent loop is reachable from the
starting commit by iterated commits.get(parent). -/
theorem descend_reach (m : CMap) :
    ∀ (fuel : Nat) (minh acc d : Int) (c p : Commit),
      descend m fuel minh acc c = .ok (d, p) → ∃ n, creach m n c = some p := by
  intro fuel
  induction fuel with
  | zero =>
    intro minh acc d c p h
    exact absurd h (by simp [descend])
  | succ fuel ih =>
    intro minh acc d c p h
    simp only [descend] at h
    split at h
    · exact absurd h (by simp)
    · rename_i s hs
      split at h
      · split at h
        · exact absurd h (by simp)
        · rename_i p0 hpp
          split at h
          · exact absurd h (by simp)
          · rename_i c2 hlp
            rcases ih minh (acc + (c.burn_block_height - s)) d c2 p h with ⟨n, hn⟩
            refine ⟨1 + n, ?_⟩
            refine creach_compose m 1 n c c2 p ?_ hn
            rw [creach_one, hpp]
            simpa using hlp
      · rcases Prod.mk.inj (Except.ok.inj h) with ⟨_, rfl⟩
        exact ⟨0, rfl⟩

/-- resolvePairs keeps each pair's tip and resolves its pointer. -/
theorem resolvePairs_mem :
    ∀ (l : List (Commit × Option Commit)) (l2 : List (Commit × Commit)),
      resolvePairs l = some l2 →
      ∀ x ∈ l, ∃ y ∈ l2, y.1 = x.1 ∧ x.2 = some y.2 := by
  intro l
  induction l with
  | nil =>
    intro l2 _ x hx
    exact absurd hx (by simp)
  | cons q rest ih =>
    intro l2 h x hx
    rcases q with ⟨t, o⟩
    rcases o with _ | c
    · exact absurd h (by simp [resolvePairs])
    · simp only [resolvePairs] at h
      rcases hres : resolvePairs rest with _ | l3
      · rw [hres] at h
        exact absurd h (by simp)
      · rw [hres] at h
        rcases Option.some.inj h with rfl
        rcases List.mem_cons.mp hx with rfl | hx2
        · exact ⟨(t, c), List.mem_cons_self _ _, rfl, rfl⟩
        · rcases ih l3 hres x hx2 with ⟨y, hy, hy1, hy2⟩
          exact ⟨y, List.mem_cons_of_mem _ hy, hy1, hy2⟩

/-- If the trace-back loop converges with scores, all walking pointers
reach one common commit. -/
theorem lockstep_conv (m : CMap) :
    ∀ (fuel : Nat) (pairs : List (Commit × Commit)) (scores s : Scores),
      lockstep m fuel pairs scores = .ok (some s) →
      ∃ a, ∀ pr ∈ pairs, ∃ n, creach m n pr.2 = some a := by
  intro fuel
  induction fuel with
  | zero =>
    intro pairs scores s h
    exact absurd h (by simp [lockstep])
  | succ fuel ih =>
    intro pairs scores s h
    rcases pairs with _ | ⟨p, ps⟩
    · exact ⟨dummyCommit, by simp⟩
    · simp only [lockstep] at h
      split at h
      · rename_i hall
        refine ⟨p.2, ?_⟩
        intro pr hpr
        have := List.all_eq_true.mp hall pr hpr
        refine ⟨0, ?_⟩
        rw [of_decide_eq_true this]
        rfl
      · split at h
        · exact absurd h (by simp)
        · rename_i pairs2 hres
          split at h
          · exact absurd h (by simp)
          · rename_i sc2 hadd
            rcases ih pairs2 sc2 s h with ⟨a, ha⟩
            refine ⟨a, ?_⟩
            intro pr hpr
            have hmem : (pr.1, pr.2.parent.bind (lookupA m)) ∈
                (p :: ps).map (fun pc => (pc.1, pc.2.parent.bind (lookupA m))) :=
              List.mem_map_of_mem _ hpr
            rcases resolvePairs_mem _ pairs2 hres _ hmem with ⟨y, hy, _, hy2⟩
            rcases ha y hy with ⟨n, hn⟩
            refine ⟨1 + n, ?_⟩
            refine creach_compose m 1 n pr.2 y.2 a ?_ hn
            rw [creach_one]
            exact hy2

/-- Every pair produced by phase 1 joins a candidate tip to a pointer
reachable from it, and the tips of the pairs are exactly the candidate
list in order. -/
theorem phase1_pairs (m : CMap) (fuel : Nat) (minh maxh : Int) :
    ∀ (tips : List Commit) (acc : Scores × List (Commit × Commit))
      (scores : Scores) (pairs : List (Commit × Commit)),
      foldE (phase1Step m fuel minh maxh) acc tips = .ok (scores, pairs) →
      pairs.map Prod.fst = acc.2.map Prod.fst ++ tips.map id ∧
      ∀ pr ∈ pairs, pr ∈ acc.2 ∨ ∃ n, creach m n pr.1 = some pr.2 := by
  intro tips
  induction tips with
  | nil =>
    intro acc scores pairs h
    simp only [foldE] at h
    rcases Prod.mk.inj (Except.ok.inj h) with ⟨rfl, rfl⟩
    exact ⟨by simp, fun pr hpr => Or.inl hpr⟩
  | cons t rest ih =>
    intro acc scores pairs h
    simp only [foldE] at h
    split at h
    · exact absurd h (by simp)
    · rename_i acc2 hstep
      simp only [phase1Step] at hstep
      split at hstep
      · exact absurd hstep (by simp)
      · rename_i tc hlt
        split at hstep
        · exact absurd hstep (by simp)
        · rename_i ts hts
          split at hstep
          · exact absurd hstep (by simp)
          · rename_i d p hdes
            rcases (Except.ok.inj hstep) with rfl
            rcases ih _ scores pairs h with ⟨h1, h2⟩
            constructor
            · rw [h1]
              simp
            · intro pr hpr
              rcases h2 pr hpr with hin | hre
              · rcases List.mem_append.mp hin with hin2 | hin2
                · exact Or.inl hin2
                · rcases List.mem_singleton.mp hin2 with rfl
                  rcases descend_reach m fuel minh 0 d t p hdes with ⟨n, hn⟩
                  exact Or.inr ⟨n, hn⟩
              · exact Or.inr hre

/-- If the fork scorer returns scores, the candidate tips share a
common ancestor reachable from every one of them. -/
theorem get_score_common_of_some (fuel : Nat) (tips : List Commit) (m : CMap) (s : Scores)
    (h : get_score_to_common_ancestor fuel tips m = .ok (some s)) :
    ∃ a, ∀ t ∈ tips, ∃ n, creach m n t = some a := by
  rcases tips with _ | ⟨t, rest⟩
  · exact absurd h (by simp [get_score_to_common_ancestor])
  · simp only [get_score_to_common_ancestor] at h
    split at h
    · exact absurd h (by simp)
    · rename_i sl hsl
      split at h
      · exact absurd h (by simp)
      · rename_i scores pairs hph
        rcases phase1_pairs m fuel _ _ (t :: rest) ([], []) scores pairs hph with ⟨hmap, hpr⟩
        rcases lockstep_conv m fuel pairs scores s h with ⟨a, ha⟩
        refine ⟨a, ?_⟩
        intro t2 ht2
        have hmem : t2 ∈ pairs.map Prod.fst := by
          rw [hmap]
          simpa using ht2
        rcases List.mem_map.mp hmem with ⟨pr, hprm, hfst⟩
        rcases hpr pr hprm with hin | ⟨n1, hn1⟩
        · exact absurd hin (by simp)
        · rcases ha pr hprm with ⟨n2, hn2⟩
          refine ⟨n1 + n2, ?_⟩
          rw [← hfst]
          exact creach_compose m n1 n2 pr.1 pr.2 a hn1 hn2

/-- Claim C1 (amended): candidate tips with no common ancestor inside
the loaded window never produce a prediction: the scorer never returns
scores (it returns none or raises), and whenever mark_next_tip
completes over such candidates it leaves the map unchanged (no commit
is marked next_tip).  An unresolved parent during the lock-step phase
yields the no-prediction result; an unresolved parent during the
initial descent makes the scorer raise instead (see the
counterexample). -/
theorem C1_no_common_ancestor_no_prediction (fuel : Nat) (tips : List Commit) (m : CMap)
    (hnca : ¬ ∃ a, ∀ t ∈ tips, ∃ n, creach m n t = some a) :
    (∀ s, get_score_to_common_ancestor fuel tips m ≠ .ok (some s)) ∧
    (∀ (ct : String) (d : Int) (m2 : CMap) (ctc : Commit) (csh : Int),
      lookupA m ct = some ctc → ctc.stacks_height = some csh →
      collectTips m (csh - d) = .ok tips →
      mark_next_tip fuel ct d m = .ok m2 → m2 = m) := by
  have hscore : ∀ s, get_score_to_common_ancestor fuel tips m ≠ .ok (some s) := by
    intro s hs
    exact hnca (get_score_common_of_some fuel tips m s hs)
  refine ⟨hscore, ?_⟩
  intro ct d m2 ctc csh hct hcsh hcol hmark
  simp only [mark_next_tip, hct, hcsh, hcol] at hmark
  rcases hsc : get_score_to_common_ancestor fuel tips m with e | o
  · rw [hsc] at hmark
    exact absurd hmark (by simp)
  · rcases o with _ | sc
    · rw [hsc] at hmark
      exact (Except.ok.inj hmark).symm
    · exact absurd hsc (hscore sc)

/-- Claim C1 counterexample: two live candidate tips with no common
ancestor in the window, where the taller tip's initial descent hits an
unresolved parent: the scorer raises AttributeError (None has no
attribute stacks_height) instead of returning the no-prediction result,
and mark_next_tip propagates the exception. -/
theorem C1_counterexample :
    (¬ ∃ a, ∀ t ∈ [cexTipA, cexTipB], ∃ n, creach cexMapAB n t = some a) ∧
    get_score_to_common_ancestor 10 [cexTipA, cexTipB] cexMapAB = .error .attributeError ∧
    mark_next_tip 10 "b" 100 cexMapAB = .error .attributeError := by
  refine ⟨?_, by rfl, by rfl⟩
  rintro ⟨a, ha⟩
  rcases ha cexTipA (by simp) with ⟨n1, h1⟩
  rcases ha cexTipB (by simp) with ⟨n2, h2⟩
  have e1 : a = cexTipA := creach_root_fixed cexMapAB cexTipA rfl n1 a h1
  have e2 : a = cexTipB := creach_root_fixed cexMapAB cexTipB rfl n2 a h2
  have : cexTipA = cexTipB := e1 ▸ e2
  exact absurd this (by decide)

/-- Witness for C1_no_common_ancestor_no_prediction: two rootless
equal-height tips (no descent needed), where the lock-step phase
immediately finds both pointers unresolved and mark_next_tip completes
without marking anything. -/
theorem C1_no_common_ancestor_no_prediction_witness :
    (∀ s, get_score_to_common_ancestor 10 [witTipA, witTipB] witMapAB ≠ .ok (some s)) ∧
    (∀ (ct : String) (d : Int) (m2 : CMap) (ctc : Commit) (csh : Int),
      lookupA witMapAB ct = some ctc → ctc.stacks_height = some csh →
      collectTips witMapAB (csh - d) = .ok [witTipA, witTipB] →
      mark_next_tip 10 ct d witMapAB = .ok m2 → m2 = witMapAB) := by
  refine C1_no_common_ancestor_no_prediction 10 [witTipA, witTipB] witMapAB ?_
  rintro ⟨a, ha⟩
  rcases ha witTipA (by simp) with ⟨n1, h1⟩
  rcases ha witTipB (by simp) with ⟨n2, h2⟩
  have e1 : a = witTipA := creach_root_fixed witMapAB witTipA rfl n1 a h1
  have e2 : a = witTipB := creach_root_fixed witMapAB witTipB rfl n2 a h2
  have : witTipA = witTipB := e1 ▸ e2
  exact absurd this (by decide)

/-! ### Claim C5 -/

/-- Refinement of the descent loop: when it succeeds, its result is the
initial accumulator plus the spec-side walk sum over the spec-side
descent chain, ending at the chain's final pointer. -/
theorem descend_spec (m : CMap) :
    ∀ (fuel : Nat) (minh acc : Int) (c : Commit) (d : Int) (p : Commit),
      descend m fuel minh acc c = .ok (d, p) →
      ∃ L, specDescentChain m minh fuel c = some (L, p) ∧ d = acc + specWalkSum L := by
  intro fuel
  induction fuel with
  | zero =>
    intro minh acc c d p h
    exact absurd h (by simp [descend])
  | succ fuel ih =>
    intro minh acc c d p h
    simp only [descend] at h
    split at h
    · exact absurd h (by simp)
    · rename_i s hs
      split at h
      · rename_i hlt
        split at h
        · exact absurd h (by simp)
        · rename_i p0 hpp
          split at h
          · exact absurd h (by simp)
          · rename_i c2 hlp
            rcases ih minh (acc + (c.burn_block_height - s)) c2 d p h with ⟨L2, hL2, hd⟩
            refine ⟨c :: L2, ?_, ?_⟩
            · simp only [specDescentChain, hs, if_pos hlt, hpp, hlp, hL2]
            · rw [hd]
              simp only [specWalkSum, List.map_cons, List.sum_cons, hs, Option.getD_some]
              ring
      · rename_i hlt
        rcases Prod.mk.inj (Except.ok.inj h) with ⟨rfl, rfl⟩
        refine ⟨[], ?_, ?_⟩
        · simp only [specDescentChain, hs, if_neg hlt]
        · simp [specWalkSum]

/-- stacksListE succeeds exactly with the elementwise stacks heights. -/
theorem stacksListE_forall2 :
    ∀ (tips : List Commit) (sl : List Int), stacksListE tips = .ok sl →
      List.Forall₂ (fun (t : Commit) (s : Int) => t.stacks_height = some s) tips sl := by
  intro tips
  induction tips with
  | nil =>
    intro sl h
    simp only [stacksListE] at h
    rcases Except.ok.inj h with rfl
    exact List.Forall₂.nil
  | cons c l ih =>
    intro sl h
    simp only [stacksListE] at h
    split at h
    · exact absurd h (by simp)
    · rename_i s hs
      split at h
      · exact absurd h (by simp)
      · rename_i l2 hl2
        rcases Except.ok.inj h with rfl
        exact List.Forall₂.cons hs (ih l2 hl2)

/-- Forall2 transfers membership on the left to a related element. -/
theorem forall2_mem_left {α β : Type} {R : α → β → Prop} :
    ∀ (l1 : List α) (l2 : List β), List.Forall₂ R l1 l2 →
      ∀ a ∈ l1, ∃ b ∈ l2, R a b := by
  intro l1
  induction l1 with
  | nil =>
    intro l2 _ a ha
    exact absurd ha (by simp)
  | cons x xs ih =>
    intro l2 h a ha
    rcases h with _ | ⟨hR, hrest⟩
    rcases List.mem_cons.mp ha with rfl | ha2
    · exact ⟨_, List.mem_cons_self _ _, hR⟩
    · rcases ih _ hrest a ha2 with ⟨b, hb, hRb⟩
      exact ⟨b, List.mem_cons_of_mem _ hb, hRb⟩

/-- Forall2 transfers membership on the right to a related element. -/
theorem forall2_mem_right {α β : Type} {R : α → β → Prop} :
    ∀ (l1 : List α) (l2 : List β), List.Forall₂ R l1 l2 →
      ∀ b ∈ l2, ∃ a ∈ l1, R a b := by
  intro l1
  induction l1 with
  | nil =>
    intro l2 h b hb
    cases h
    exact absurd hb (by simp)
  | cons x xs ih =>
    intro l2 h b hb
    rcases h with _ | ⟨hR, hrest⟩
    rcases List.mem_cons.mp hb with rfl | hb2
    · exact ⟨x, List.mem_cons_self _ _, hR⟩
    · rcases ih _ hrest b hb2 with ⟨a, ha, hRa⟩
      exact ⟨a, List.mem_cons_of_mem _ ha, hRa⟩

/-- The running minimum bounds every listed element from below. -/
theorem listFoldMin_le : ∀ (l : List Int) (a : Int), ∀ b ∈ a :: l, listFoldMin a l ≤ b := by
  intro l
  induction l with
  | nil =>
    intro a b hb
    rcases List.mem_singleton.mp hb with rfl
    exact le_refl _
  | cons x xs ih =>
    intro a b hb
    simp only [listFoldMin]
    rcases List.mem_cons.mp hb with rfl | hb2
    · exact le_trans (ih (min b x) (min b x) (List.mem_cons_self _ _)) (min_le_left b x)
    · rcases List.mem_cons.mp hb2 with rfl | hb3
      · exact le_trans (ih (min a b) (min a b) (List.mem_cons_self _ _)) (min_le_right a b)
      · exact ih (min a x) b (List.mem_cons_of_mem _ hb3)

/-- The running minimum is one of the listed elements. -/
theorem listFoldMin_mem : ∀ (l : List Int) (a : Int), listFoldMin a l ∈ a :: l := by
  intro l
  induction l with
  | nil =>
    intro a
    simp [listFoldMin]
  | cons x xs ih =>
    intro a
    simp only [listFoldMin]
    rcases List.mem_cons.mp (ih (min a x)) with he | hm
    · rcases min_choice a x with hc | hc
      · rw [he, hc]
        exact List.mem_cons_self _ _
      · rw [he, hc]
        exact List.mem_cons_of_mem _ (List.mem_cons_self _ _)
    · exact List.mem_cons_of_mem _ (List.mem_cons_of_mem _ hm)

/-- The running maximum bounds every listed element from above. -/
theorem listFoldMax_ge : ∀ (l : List Int) (a : Int), ∀ b ∈ a :: l, b ≤ listFoldMax a l := by
  intro l
  induction l with
  | nil =>
    intro a b hb
    rcases List.mem_singleton.mp hb with rfl
    exact le_refl _
  | cons x xs ih =>
    intro a b hb
    simp only [listFoldMax]
    rcases List.mem_cons.mp hb with rfl | hb2
    · exact le_trans (le_max_left b x) (ih (max b x) (max b x) (List.mem_cons_self _ _))
    · rcases List.mem_cons.mp hb2 with rfl | hb3
      · exact le_trans (le_max_right a b) (ih (max a b) (max a b) (List.mem_cons_self _ _))
      · exact ih (max a x) b (List.mem_cons_of_mem _ hb3)

/-- The running maximum is one of the listed elements. -/
theorem listFoldMax_mem : ∀ (l : List Int) (a : Int), listFoldMax a l ∈ a :: l := by
  intro l
  induction l with
  | nil =>
    intro a
    simp [listFoldMax]
  | cons x xs ih =>
    intro a
    simp only [listFoldMax]
    rcases List.mem_cons.mp (ih (max a x)) with he | hm
    · rcases max_choice a x with hc | hc
      · rw [he, hc]
        exact List.mem_cons_self _ _
      · rw [he, hc]
        exact List.mem_cons_of_mem _ (List.mem_cons_self _ _)
    · exact List.mem_cons_of_mem _ (List.mem_cons_of_mem _ hm)

/-- Phase 1 leaves score entries at keys outside the candidate hashes
unchanged. -/
theorem phase1_preserves (m : CMap) (fuel : Nat) (minh maxh : Int) :
    ∀ (tips : List Commit) (acc : Scores × List (Commit × Commit)) (scores : Scores)
      (pairs : List (Commit × Commit)) (k : String),
      foldE (phase1Step m fuel minh maxh) acc tips = .ok (scores, pairs) →
      k ∉ tips.map Commit.block_header_hash →
      lookupA scores k = lookupA acc.1 k := by
  intro tips
  induction tips with
  | nil =>
    intro acc scores pairs k h _
    simp only [foldE] at h
    rcases Prod.mk.inj (Except.ok.inj h) with ⟨rfl, rfl⟩
    rfl
  | cons t rest ih =>
    intro acc scores pairs k h hk
    simp only [foldE] at h
    split at h
    · exact absurd h (by simp)
    · rename_i acc2 hstep
      simp only [phase1Step] at hstep
      split at hstep
      · exact absurd hstep (by simp)
      · rename_i tc hlt
        split at hstep
        · exact absurd hstep (by simp)
        · rename_i ts hts
          split at hstep
          · exact absurd hstep (by simp)
          · rename_i d p hdes
            rcases (Except.ok.inj hstep) with rfl
            have hk1 : k ≠ t.block_header_hash := by
              intro he
              exact hk (by rw [he]; simp)
            have hk2 : k ∉ rest.map Commit.block_header_hash := by
              intro he
              exact hk (by simp [he])
            rw [ih _ scores pairs k h hk2]
            exact lookupA_insertA_ne _ _ _ _ hk1

/-- The score each candidate carries after phase 1: the dict-read
initialisation penalty plus the descent total. -/
theorem phase1_scores (m : CMap) (fuel : Nat) (minh maxh : Int) :
    ∀ (tips : List Commit) (acc : Scores × List (Commit × Commit)) (scores : Scores)
      (pairs : List (Commit × Commit)),
      foldE (phase1Step m fuel minh maxh) acc tips = .ok (scores, pairs) →
      (tips.map Commit.block_header_hash).Nodup →
      ∀ t ∈ tips, ∃ tc ts d p,
        lookupA m t.block_header_hash = some tc ∧ tc.stacks_height = some ts ∧
        descend m fuel minh 0 t = .ok (d, p) ∧
        lookupA scores t.block_header_hash =
          some ((tc.burn_block_height - ts) * (maxh - ts) + d) := by
  intro tips
  induction tips with
  | nil =>
    intro acc scores pairs _ _ t ht
    exact absurd ht (by simp)
  | cons t rest ih =>
    intro acc scores pairs h hnd t2 ht2
    simp only [foldE] at h
    split at h
    · exact absurd h (by simp)
    · rename_i acc2 hstep
      simp only [phase1Step] at hstep
      split at hstep
      · exact absurd hstep (by simp)
      · rename_i tc hlt
        split at hstep
        · exact absurd hstep (by simp)
        · rename_i ts hts
          split at hstep
          · exact absurd hstep (by simp)
          · rename_i d p hdes
            rcases (Except.ok.inj hstep) with rfl
            rcases List.mem_cons.mp ht2 with rfl | ht3
            · refine ⟨tc, ts, d, p, hlt, hts, hdes, ?_⟩
              have hnotin : t2.block_header_hash ∉ rest.map Commit.block_header_hash :=
                (List.nodup_cons.mp hnd).1
              rw [phase1_preserves m fuel minh maxh rest _ scores pairs
                t2.block_header_hash h hnotin]
              exact lookupA_insertA_self _ _ _
            · exact ih _ scores pairs h (List.nodup_cons.mp hnd).2 t2 ht3

/-- Claim C5: for a non-empty candidate set, phase 1 of the fork scorer
gives each candidate t the score
(burn_height(t) - resolved_height(t)) * (H_max - resolved_height(t))
plus the sum of (burn_height - resolved_height) over its descent chain,
the walk of its parent chain down to the minimum resolved height H_min;
H_min and H_max are attained minimum and maximum of the candidates'
resolved heights. -/
theorem C5_initial_scores (m : CMap) (fuel : Nat) (tips : List Commit)
    (sl : List Int) (minh maxh : Int) (scores : Scores) (pairs : List (Commit × Commit))
    (hne : tips ≠ [])
    (hnodup : (tips.map Commit.block_header_hash).Nodup)
    (hsl : stacksListE tips = .ok sl)
    (hmin : minh = listFoldMin (sl.headD 0) sl.tail)
    (hmax : maxh = listFoldMax (sl.headD 0) sl.tail)
    (hph : phase1 m fuel minh maxh tips = .ok (scores, pairs)) :
    (∀ t ∈ tips, ∃ ts, t.stacks_height = some ts ∧ minh ≤ ts ∧ ts ≤ maxh) ∧
    (∃ tmin ∈ tips, tmin.stacks_height = some minh) ∧
    (∃ tmax ∈ tips, tmax.stacks_height = some maxh) ∧
    (∀ t ∈ tips, ∃ tc ts L p,
      lookupA m t.block_header_hash = some tc ∧ tc.stacks_height = some ts ∧
      specDescentChain m minh fuel t = some (L, p) ∧
      lookupA scores t.block_header_hash =
        some ((tc.burn_block_height - ts) * (maxh - ts) + specWalkSum L)) := by
  have hf2 := stacksListE_forall2 tips sl hsl
  have hslne : sl ≠ [] := by
    intro he
    rw [he] at hf2
    cases hf2
    exact hne rfl
  have hslshape : sl.headD 0 :: sl.tail = sl := by
    rcases sl with _ | ⟨s0, sl2⟩
    · exact absurd rfl hslne
    · rfl
  refine ⟨?_, ?_, ?_, ?_⟩
  · intro t ht
    rcases forall2_mem_left tips sl hf2 t ht with ⟨b, hb, hR⟩
    refine ⟨b, hR, ?_, ?_⟩
    · rw [hmin]
      exact listFoldMin_le sl.tail (sl.headD 0) b (by rw [hslshape]; exact hb)
    · rw [hmax]
      exact listFoldMax_ge sl.tail (sl.headD 0) b (by rw [hslshape]; exact hb)
  · have hm : minh ∈ sl := by
      rw [hmin, ← hslshape]
      exact listFoldMin_mem sl.tail (sl.headD 0)
    rcases forall2_mem_right tips sl hf2 minh hm with ⟨t, ht, hR⟩
    exact ⟨t, ht, hR⟩
  · have hm : maxh ∈ sl := by
      rw [hmax, ← hslshape]
      exact listFoldMax_mem sl.tail (sl.headD 0)
    rcases forall2_mem_right tips sl hf2 maxh hm with ⟨t, ht, hR⟩
    exact ⟨t, ht, hR⟩
  · intro t ht
    rcases phase1_scores m fuel minh maxh tips ([], []) scores pairs hph hnodup t ht with
      ⟨tc, ts, d, p, hltc, hts, hdes, hsc⟩
    rcases descend_spec m fuel minh 0 t d p hdes with ⟨L, hL, hd⟩
    refine ⟨tc, ts, L, p, hltc, hts, hL, ?_⟩
    rw [hsc, hd]
    simp only [zero_add]

/-- Witness for C5_initial_scores: two candidates at heights 3 and 5;
the taller one walks through an ancestor at height 4 down to height 3,
yielding scores 194 and 0 + 99 + 99 = 198. -/
theorem C5_initial_scores_witness :
    (∀ t ∈ [c5T1, c5T2], ∃ ts, t.stacks_height = some ts ∧ 3 ≤ ts ∧ ts ≤ 5) ∧
    (∃ tmin ∈ [c5T1, c5T2], tmin.stacks_height = some 3) ∧
    (∃ tmax ∈ [c5T1, c5T2], tmax.stacks_height = some 5) ∧
    (∀ t ∈ [c5T1, c5T2], ∃ tc ts L p,
      lookupA c5Map t.block_header_hash = some tc ∧ tc.stacks_height = some ts ∧
      specDescentChain c5Map 3 10 t = some (L, p) ∧
      lookupA [("t1", (194 : Int)), ("t2", 198)] t.block_header_hash =
        some ((tc.burn_block_height - ts) * (5 - ts) + specWalkSum L)) :=
  C5_initial_scores c5Map 10 [c5T1, c5T2] [3, 5] 3 5
    [("t1", 194), ("t2", 198)] [(c5T1, c5T1), (c5T2, c5P3)]
    (by decide) (by decide) (by rfl) (by rfl) (by rfl) (by rfl)

/-! ### Claim C6 -/

/-- The left-to-right minimum scan: the result either is the starting
best, bounding everything scanned, or is a scanned element strictly
below the starting best, strictly below everything before it and at or
below everything after it. -/
theorem firstMinAux_spec :
    ∀ (xs : List (String × Int)) (best : String × Int),
      (firstMinAux best xs = best ∧ ∀ y ∈ xs, best.2 ≤ y.2) ∨
      (∃ pre post, xs = pre ++ firstMinAux best xs :: post ∧
        (firstMinAux best xs).2 < best.2 ∧
        (∀ y ∈ pre, (firstMinAux best xs).2 < y.2) ∧
        (∀ y ∈ post, (firstMinAux best xs).2 ≤ y.2)) := by
  intro xs
  induction xs with
  | nil =>
    intro best
    exact Or.inl ⟨rfl, by simp⟩
  | cons x xs ih =>
    intro best
    by_cases hlt : x.2 < best.2
    · have hr : firstMinAux best (x :: xs) = firstMinAux x xs := by
        simp only [firstMinAux, if_pos hlt]
      rcases ih x with ⟨he, hall⟩ | ⟨pre, post, hsplit, hlt2, hpre, hpost⟩
      · refine Or.inr ⟨[], xs, ?_, ?_, by simp, ?_⟩
        · rw [hr, he]
          rfl
        · rw [hr, he]
          exact hlt
        · intro y hy
          rw [hr, he]
          exact hall y hy
      · refine Or.inr ⟨x :: pre, post, ?_, ?_, ?_, ?_⟩
        · rw [hr]
          rw [List.cons_append]
          exact congrArg (x :: ·) hsplit
        · rw [hr]
          exact lt_trans hlt2 hlt
        · intro y hy
          rcases List.mem_cons.mp hy with rfl | hy2
          · rw [hr]
            exact hlt2
          · rw [hr]
            exact hpre y hy2
        · intro y hy
          rw [hr]
          exact hpost y hy
    · have hr : firstMinAux best (x :: xs) = firstMinAux best xs := by
        simp only [firstMinAux, if_neg hlt]
      rcases ih best with ⟨he, hall⟩ | ⟨pre, post, hsplit, hlt2, hpre, hpost⟩
      · refine Or.inl ⟨by rw [hr, he], ?_⟩
        intro y hy
        rcases List.mem_cons.mp hy with rfl | hy2
        · exact le_of_not_lt hlt
        · exact hall y hy2
      · refine Or.inr ⟨x :: pre, post, ?_, ?_, ?_, ?_⟩
        · rw [hr, List.cons_append]
          exact congrArg (x :: ·) hsplit
        · rw [hr]
          exact hlt2
        · intro y hy
          rcases List.mem_cons.mp hy with rfl | hy2
          · rw [hr]
            exact lt_of_lt_of_le hlt2 (le_of_not_lt hlt)
          · rw [hr]
            exact hpre y hy2
        · intro y hy
          rw [hr]
          exact hpost y hy

/-- Python min over the score items returns the first item attaining
the strict minimum: everything before it is strictly larger, everything
after it no smaller. -/
theorem firstMin_split (x : String × Int) (xs : List (String × Int)) :
    ∃ pre post, x :: xs = pre ++ firstMinAux x xs :: post ∧
      (∀ y ∈ pre, (firstMinAux x xs).2 < y.2) ∧
      (∀ y ∈ post, (firstMinAux x xs).2 ≤ y.2) := by
  rcases firstMinAux_spec xs x with ⟨he, hall⟩ | ⟨pre, post, hsplit, hlt2, hpre, hpost⟩
  · refine ⟨[], xs, ?_, by simp, ?_⟩
    · rw [he]
      rfl
    · intro y hy
      rw [he]
      exact hall y hy
  · refine ⟨x :: pre, post, ?_, ?_, hpost⟩
    · rw [List.cons_append]
      exact congrArg (x :: ·) hsplit
    · intro y hy
      rcases List.mem_cons.mp hy with rfl | hy2
      · exact hlt2
      · exact hpre y hy2

/-- Claim C6: one invocation of mark_next_tip marks next_tip on at most
one commit, and when the scorer converges with a non-empty score dict
the marked commit is the first score item attaining the minimum score:
strictly below every earlier item (so a strictly smallest score always
wins) and at or below every later one (an exact tie keeps the earlier
item in the deterministic insertion order of the score dict). -/
theorem C6_next_tip_unique (fuel : Nat) (ct : String) (dep : Int) (m m2 : CMap)
    (hmark : mark_next_tip fuel ct dep m = .ok m2) :
    (∀ k1 k2 c1 c2 d1 d2,
      lookupA m2 k1 = some c1 → c1.next_tip = true →
      lookupA m k1 = some d1 → d1.next_tip = false →
      lookupA m2 k2 = some c2 → c2.next_tip = true →
      lookupA m k2 = some d2 → d2.next_tip = false →
      k1 = k2) ∧
    (∀ (ctc : Commit) (csh : Int) (tips : List Commit) (x : String × Int)
        (xs : List (String × Int)),
      lookupA m ct = some ctc → ctc.stacks_height = some csh →
      collectTips m (csh - dep) = .ok tips →
      get_score_to_common_ancestor fuel tips m = .ok (some (x :: xs)) →
      ∃ c pre post,
        lookupA m (firstMinAux x xs).1 = some c ∧
        m2 = insertA m (firstMinAux x xs).1 { c with next_tip := true } ∧
        x :: xs = pre ++ firstMinAux x xs :: post ∧
        (∀ y ∈ pre, (firstMinAux x xs).2 < y.2) ∧
        (∀ y ∈ post, (firstMinAux x xs).2 ≤ y.2)) := by
  constructor
  · intro k1 k2 c1 c2 d1 d2 hl1 ht1 hl1m ht1m hl2 ht2 hl2m ht2m
    simp only [mark_next_tip] at hmark
    split at hmark
    · exact absurd hmark (by simp)
    · split at hmark
      · exact absurd hmark (by simp)
      · split at hmark
        · exact absurd hmark (by simp)
        · split at hmark
          · exact absurd hmark (by simp)
          · -- scores = none: map unchanged
            rcases Except.ok.inj hmark with rfl
            rw [hl1m] at hl1
            rcases Option.some.inj hl1 with rfl
            rw [ht1] at ht1m
            exact absurd ht1m (by simp)
          · -- scores = some []: map unchanged
            rcases Except.ok.inj hmark with rfl
            rw [hl1m] at hl1
            rcases Option.some.inj hl1 with rfl
            rw [ht1] at ht1m
            exact absurd ht1m (by simp)
          · -- scores = some (x :: xs): one key marked
            rename_i x xs hsceq
            split at hmark
            · exact absurd hmark (by simp)
            · rename_i c hlc
              rcases Except.ok.inj hmark with rfl
              have hb : ∀ k (ck dk : Commit), lookupA (insertA m (firstMinAux x xs).1
                  { c with next_tip := true }) k = some ck → ck.next_tip = true →
                  lookupA m k = some dk → dk.next_tip = false →
                  k = (firstMinAux x xs).1 := by
                intro k ck dk hck htck hdk htdk
                by_contra hne
                rw [lookupA_insertA_ne _ _ _ _ hne] at hck
                rw [hdk] at hck
                rcases Option.some.inj hck with rfl
                rw [htck] at htdk
                exact absurd htdk (by simp)
              rw [hb k1 c1 d1 hl1 ht1 hl1m ht1m, hb k2 c2 d2 hl2 ht2 hl2m ht2m]
  · intro ctc csh tips x xs hct hcsh hcol hscore
    simp only [mark_next_tip, hct, hcsh, hcol, hscore] at hmark
    split at hmark
    · exact absurd hmark (by simp)
    · rename_i c hlc
      rcases Except.ok.inj hmark with rfl
      rcases firstMin_split x xs with ⟨pre, post, hsplit, hpre, hpost⟩
      exact ⟨c, pre, post, hlc, rfl, hsplit, hpre, hpost⟩

/-- Witness for C6_next_tip_unique: a single live candidate; the scorer
converges immediately with score 0 and the candidate is marked. -/
theorem C6_next_tip_unique_witness :
    (∀ k1 k2 c1 c2 d1 d2,
      lookupA [("a", { c6Tip with next_tip := true })] k1 = some c1 → c1.next_tip = true →
      lookupA c6Map k1 = some d1 → d1.next_tip = false →
      lookupA [("a", { c6Tip with next_tip := true })] k2 = some c2 → c2.next_tip = true →
      lookupA c6Map k2 = some d2 → d2.next_tip = false →
      k1 = k2) ∧
    (∀ (ctc : Commit) (csh : Int) (tips : List Commit) (x : String × Int)
        (xs : List (String × Int)),
      lookupA c6Map "a" = some ctc → ctc.stacks_height = some csh →
      collectTips c6Map (csh - 3) = .ok tips →
      get_score_to_common_ancestor 10 tips c6Map = .ok (some (x :: xs)) →
      ∃ c pre post,
        lookupA c6Map (firstMinAux x xs).1 = some c ∧
        [("a", { c6Tip with next_tip := true })] =
          insertA c6Map (firstMinAux x xs).1 { c with next_tip := true } ∧
        x :: xs = pre ++ firstMinAux x xs :: post ∧
        (∀ y ∈ pre, (firstMinAux x xs).2 < y.2) ∧
        (∀ y ∈ post, (firstMinAux x xs).2 ≤ y.2)) :=
  C6_next_tip_unique 10 "a" 3 c6Map [("a", { c6Tip with next_tip := true })] (by rfl)

/-! ### Canonical-marking infrastructure (claims C3 and C7) -/

theorem insertA_keys_of_present {α β : Type} [DecidableEq α] (m : List (α × β)) (k : α) (v : β)
    (h : (lookupA m k).isSome) : (insertA m k v).map Prod.fst = m.map Prod.fst := by
  induction m with
  | nil => simp [lookupA] at h
  | cons p t ih =>
    by_cases he : p.1 = k
    · simp [insertA, he]
    · simp only [lookupA] at h
      rw [if_neg he] at h
      simp only [insertA]
      rw [if_neg he]
      simp only [List.map_cons]
      rw [ih h]

theorem entryEvo_refl (c : Commit) : entryEvo c c :=
  ⟨rfl, rfl, rfl, rfl, rfl, fun h => h⟩

theorem entryEvo_trans {a b c : Commit} (h1 : entryEvo a b) (h2 : entryEvo b c) :
    entryEvo a c := by
  rcases h1 with ⟨e1, e2, e3, e4, e5, e6⟩
  rcases h2 with ⟨f1, f2, f3, f4, f5, f6⟩
  exact ⟨f1.trans e1, f2.trans e2, f3.trans e3, f4.trans e4, f5.trans e5,
    fun hw => f6 (e6 hw)⟩

/-- clearParentTip only toggles a potential_tip flag: every entry stays
with all other fields intact, and the key list is unchanged. -/
theorem clearParentTip_entry (m : CMap) (k : String) (pr : Option String) :
    (∀ q c0, lookupA m q = some c0 → ∃ c2, lookupA (clearParentTip m k pr) q = some c2 ∧
      entryEvo c0 c2 ∧ c2.stacks_height = c0.stacks_height ∧ c2.won = c0.won) ∧
    (∀ q, lookupA m q = none → lookupA (clearParentTip m k pr) q = none) ∧
    (clearParentTip m k pr).map Prod.fst = m.map Prod.fst := by
  rcases pr with _ | p
  · exact ⟨fun q c0 hq => ⟨c0, hq, entryEvo_refl c0, rfl, rfl⟩, fun q hq => hq, rfl⟩
  · simp only [clearParentTip]
    by_cases hp0 : p = ""
    · rw [if_pos hp0]
      exact ⟨fun q c0 hq => ⟨c0, hq, entryEvo_refl c0, rfl, rfl⟩, fun q hq => hq, rfl⟩
    · rw [if_neg hp0]
      by_cases hpk : p = k
      · rw [if_pos hpk]
        exact ⟨fun q c0 hq => ⟨c0, hq, entryEvo_refl c0, rfl, rfl⟩, fun q hq => hq, rfl⟩
      · rw [if_neg hpk]
        rcases hlp : lookupA m p with _ | pc
        · exact ⟨fun q c0 hq => ⟨c0, hq, entryEvo_refl c0, rfl, rfl⟩, fun q hq => hq, rfl⟩
        · refine ⟨?_, ?_, ?_⟩
          · intro q c0 hq
            by_cases hqp : q = p
            · subst hqp
              rw [hlp] at hq
              have hpc : pc = c0 := Option.some.inj hq
              subst hpc
              refine ⟨{ pc with potential_tip := false }, lookupA_insertA_self _ _ _, ?_, rfl, rfl⟩
              exact ⟨rfl, rfl, rfl, rfl, rfl, fun h => h⟩
            · rw [lookupA_insertA_ne _ _ _ _ hqp]
              exact ⟨c0, hq, entryEvo_refl c0, rfl, rfl⟩
          · intro q hq
            by_cases hqp : q = p
            · subst hqp
              rw [hq] at hlp
              exact absurd hlp (by simp)
            · rw [lookupA_insertA_ne _ _ _ _ hqp]
              exact hq
          · exact insertA_keys_of_present m p _ (by rw [hlp]; rfl)

/-- The winner branch: every entry evolves by entryEvo, entries other
than the winner keep their stacks_height, the key list is unchanged,
and the winner ends with won = true and the snapshot stacks height. -/
theorem winnerUpdate_entry (chain : ChainData) (snap : Snapshot) (m : CMap)
    (reg : Option String) (k : String) (c : Commit) (st2 : MState)
    (hk : lookupA m k = some c)
    (h : winnerUpdate chain snap m reg k c = .ok st2) :
    (∀ q c0, lookupA m q = some c0 → ∃ c2, lookupA st2.1 q = some c2 ∧ entryEvo c0 c2 ∧
      (q ≠ k → c2.stacks_height = c0.stacks_height)) ∧
    (∀ q, lookupA m q = none → lookupA st2.1 q = none) ∧
    st2.1.map Prod.fst = m.map Prod.fst ∧
    (∃ c2, lookupA st2.1 k = some c2 ∧ c2.won = true ∧
      c2.stacks_height = some snap.stacks_block_height) := by
  have hshape : ∃ c4 : Commit, st2.1 = insertA (clearParentTip m k c.parent) k c4 ∧
      entryEvo c c4 ∧ c4.won = true ∧ c4.stacks_height = some snap.stacks_block_height := by
    simp only [winnerUpdate, setWonFields] at h
    split at h
    · -- processed round
      split at h
      · -- payments row found
        rcases Except.ok.inj h with rfl
        refine ⟨_, rfl, ?_, ?_, ?_⟩
        · split
          · rename_i row hrow
            constructor <;> split <;>
              simp [entryEvo, applyPayment, applyCosts]
          · constructor <;> split <;>
              simp [entryEvo, applyPayment, applyCosts]
        · split <;> split <;> simp [applyPayment, applyCosts]
        · split <;> split <;> simp [applyPayment, applyCosts]
      · -- payments row missing: reg must be assigned
        split at h
        · exact absurd h (by simp)
        · rcases Except.ok.inj h with rfl
          refine ⟨_, rfl, ?_, ?_, ?_⟩
          · split
            · rename_i row hrow
              split <;> simp [entryEvo, applyCosts]
            · split <;> simp [entryEvo, applyCosts]
          · split <;> split <;> simp [applyCosts]
          · split <;> split <;> simp [applyCosts]
    · -- unprocessed round
      rcases Except.ok.inj h with rfl
      refine ⟨_, rfl, ?_, ?_, ?_⟩
      · split <;> simp [entryEvo]
      · split <;> simp
      · split <;> simp
  rcases hshape with ⟨c4, hsh, hevo, hwon, hst⟩
  rcases clearParentTip_entry m k c.parent with ⟨hcp1, hcp2, hcp3⟩
  refine ⟨?_, ?_, ?_, ?_⟩
  · intro q c0 hq
    by_cases hqk : q = k
    · subst hqk
      rw [hk] at hq
      rcases Option.some.inj hq with rfl
      rw [hsh]
      exact ⟨c4, lookupA_insertA_self _ _ _, hevo, fun hne => absurd rfl hne⟩
    · rw [hsh, lookupA_insertA_ne _ _ _ _ hqk]
      rcases hcp1 q c0 hq with ⟨c2, hc2, hevo2, hstk, _⟩
      exact ⟨c2, hc2, hevo2, fun _ => hstk⟩
  · intro q hq
    by_cases hqk : q = k
    · subst hqk
      rw [hq] at hk
      exact absurd hk (by simp)
    · rw [hsh, lookupA_insertA_ne _ _ _ _ hqk]
      exact hcp2 q hq
  · rw [hsh]
    rw [insertA_keys_of_present _ k c4, hcp3]
    have : (lookupA m k).isSome := by rw [hk]; rfl
    rw [lookupA_isSome_iff] at this
    rw [lookupA_isSome_iff, hcp3]
    exact this
  · rw [hsh]
    exact ⟨c4, lookupA_insertA_self _ _ _, hwon, hst⟩

/-- The non-winner branch: every entry evolves by entryEvo, entries
other than the processed key keep their stacks_height, keys unchanged. -/
theorem nonWinnerUpdate_entry (m : CMap) (k : String) (c : Commit) (m2 : CMap)
    (hk : lookupA m k = some c)
    (h : nonWinnerUpdate m k c = .ok m2) :
    (∀ q c0, lookupA m q = some c0 → ∃ c2, lookupA m2 q = some c2 ∧ entryEvo c0 c2 ∧
      (q ≠ k → c2.stacks_height = c0.stacks_height)) ∧
    (∀ q, lookupA m q = none → lookupA m2 q = none) ∧
    m2.map Prod.fst = m.map Prod.fst := by
  have hid : m2 = m ∨ ∃ v : Int, m2 = insertA m k { c with stacks_height := some (v + 1) } := by
    simp only [nonWinnerUpdate] at h
    split at h
    · exact Or.inl (Except.ok.inj h).symm
    · split at h
      · exact Or.inl (Except.ok.inj h).symm
      · split at h
        · exact Or.inl (Except.ok.inj h).symm
        · split at h
          · exact absurd h (by simp)
          · rename_i v hv
            exact Or.inr ⟨v, (Except.ok.inj h).symm⟩
  rcases hid with rfl | ⟨v, rfl⟩
  · exact ⟨fun q c0 hq => ⟨c0, hq, entryEvo_refl c0, fun _ => rfl⟩, fun q hq => hq, rfl⟩
  · refine ⟨?_, ?_, ?_⟩
    · intro q c0 hq
      by_cases hqk : q = k
      · subst hqk
        rw [hk] at hq
        rcases Option.some.inj hq with rfl
        refine ⟨_, lookupA_insertA_self _ _ _, ?_, fun hne => absurd rfl hne⟩
        exact ⟨rfl, rfl, rfl, rfl, rfl, fun hw => hw⟩
      · rw [lookupA_insertA_ne _ _ _ _ hqk]
        exact ⟨c0, hq, entryEvo_refl c0, fun _ => rfl⟩
    · intro q hq
      by_cases hqk : q = k
      · subst hqk
        rw [hq] at hk
        exact absurd hk (by simp)
      · rw [lookupA_insertA_ne _ _ _ _ hqk]
        exact hq
    · exact insertA_keys_of_present m k _ (by rw [hk]; rfl)

/-- One inner-loop step: every entry evolves by entryEvo, and an
entry's stacks_height can only change when the step is processing that
entry's own key in that entry's own round. -/
theorem innerStep_entry (chain : ChainData) (snap : Snapshot) (h : Int)
    (st : MState) (j : String) (st2 : MState)
    (hok : innerStep chain snap h st j = .ok st2) :
    (∀ q c0, lookupA st.1 q = some c0 → ∃ c2, lookupA st2.1 q = some c2 ∧ entryEvo c0 c2 ∧
      ((q ≠ j ∨ c0.burn_block_height ≠ h) → c2.stacks_height = c0.stacks_height)) ∧
    (∀ q, lookupA st.1 q = none → lookupA st2.1 q = none) ∧
    st2.1.map Prod.fst = st.1.map Prod.fst := by
  simp only [innerStep] at hok
  split at hok
  · rcases Except.ok.inj hok with rfl
    exact ⟨fun q c0 hq => ⟨c0, hq, entryEvo_refl c0, fun _ => rfl⟩, fun q hq => hq, rfl⟩
  · rename_i c hc
    split at hok
    · rename_i hburn
      split at hok
      · rename_i hwin
        rcases winnerUpdate_entry chain snap st.1 st.2 j c st2 hc hok with ⟨h1, h2, h3, _⟩
        refine ⟨?_, h2, h3⟩
        intro q c0 hq
        rcases h1 q c0 hq with ⟨c2, hc2, hevo, hstk⟩
        refine ⟨c2, hc2, hevo, ?_⟩
        intro hcond
        rcases hcond with hne | hne
        · exact hstk hne
        · by_cases hqj : q = j
          · subst hqj
            rw [hc] at hq
            rcases Option.some.inj hq with rfl
            exact absurd hburn hne
          · exact hstk hqj
      · split at hok
        · exact absurd hok (by simp)
        · rename_i m2 hnw
          rcases Except.ok.inj hok with rfl
          rcases nonWinnerUpdate_entry st.1 j c m2 hc hnw with ⟨h1, h2, h3⟩
          refine ⟨?_, h2, h3⟩
          intro q c0 hq
          rcases h1 q c0 hq with ⟨c2, hc2, hevo, hstk⟩
          refine ⟨c2, hc2, hevo, ?_⟩
          intro hcond
          rcases hcond with hne | hne
          · exact hstk hne
          · by_cases hqj : q = j
            · subst hqj
              rw [hc] at hq
              rcases Option.some.inj hq with rfl
              exact absurd hburn hne
            · exact hstk hqj
    · rcases Except.ok.inj hok with rfl
      exact ⟨fun q c0 hq => ⟨c0, hq, entryEvo_refl c0, fun _ => rfl⟩, fun q hq => hq, rfl⟩

theorem mapEvoH_refl (h : Int) (m : CMap) : mapEvoH h m m :=
  ⟨fun q c0 hq => ⟨c0, hq, entryEvo_refl c0, fun _ => rfl⟩, fun q hq => hq, rfl⟩

theorem mapEvoH_trans {h : Int} {m m1 m2 : CMap}
    (e1 : mapEvoH h m m1) (e2 : mapEvoH h m1 m2) : mapEvoH h m m2 := by
  rcases e1 with ⟨a1, a2, a3⟩
  rcases e2 with ⟨b1, b2, b3⟩
  refine ⟨?_, fun q hq => b2 q (a2 q hq), b3.trans a3⟩
  intro q c0 hq
  rcases a1 q c0 hq with ⟨c1, hc1, hevo1, hs1⟩
  rcases b1 q c1 hc1 with ⟨c2, hc2, hevo2, hs2⟩
  refine ⟨c2, hc2, entryEvo_trans hevo1 hevo2, ?_⟩
  intro hne
  have hb1 : c1.burn_block_height = c0.burn_block_height := hevo1.2.2.2.1
  rw [hs2 (by rw [hb1]; exact hne), hs1 hne]

/-- The inner loop over any key list realises the one-round map
evolution. -/
theorem innerFold_evoH (chain : ChainData) (snap : Snapshot) (h : Int) :
    ∀ (ks : List String) (st st2 : MState),
      foldE (innerStep chain snap h) st ks = .ok st2 → mapEvoH h st.1 st2.1 := by
  intro ks
  induction ks with
  | nil =>
    intro st st2 hok
    simp only [foldE] at hok
    rcases Except.ok.inj hok with rfl
    exact mapEvoH_refl h st.1
  | cons j ks ih =>
    intro st st2 hok
    simp only [foldE] at hok
    split at hok
    · exact absurd hok (by simp)
    · rename_i s1 hstep
      rcases innerStep_entry chain snap h st j s1 hstep with ⟨h1, h2, h3⟩
      refine mapEvoH_trans ⟨?_, h2, h3⟩ (ih s1 st2 hok)
      intro q c0 hq
      rcases h1 q c0 hq with ⟨c2, hc2, hevo, hstk⟩
      exact ⟨c2, hc2, hevo, fun hne => hstk (Or.inr hne)⟩

/-- Processing one round height realises the one-round map evolution. -/
theorem processHeight_evoH (chain : ChainData) (st : MState) (h : Int) (st2 : MState)
    (hok : processHeight chain st h = .ok st2) : mapEvoH h st.1 st2.1 := by
  simp only [processHeight] at hok
  split at hok
  · exact absurd hok (by simp)
  · rename_i snap hsnap
    exact innerFold_evoH chain snap h _ st st2 hok

theorem mapEvoHs_nil (m : CMap) : mapEvoHs [] m m :=
  ⟨fun q c0 hq => ⟨c0, hq, entryEvo_refl c0, fun _ => rfl⟩, fun q hq => hq, rfl⟩

theorem mapEvoH_then_Hs {h : Int} {hs : List Int} {m m1 m2 : CMap}
    (e1 : mapEvoH h m m1) (e2 : mapEvoHs hs m1 m2) : mapEvoHs (h :: hs) m m2 := by
  rcases e1 with ⟨a1, a2, a3⟩
  rcases e2 with ⟨b1, b2, b3⟩
  refine ⟨?_, fun q hq => b2 q (a2 q hq), b3.trans a3⟩
  intro q c0 hq
  rcases a1 q c0 hq with ⟨c1, hc1, hevo1, hs1⟩
  rcases b1 q c1 hc1 with ⟨c2, hc2, hevo2, hs2⟩
  refine ⟨c2, hc2, entryEvo_trans hevo1 hevo2, ?_⟩
  intro hne
  have hb1 : c1.burn_block_height = c0.burn_block_height := hevo1.2.2.2.1
  have hne1 : c0.burn_block_height ≠ h := fun he => hne (by rw [he]; exact List.mem_cons_self _ _)
  have hne2 : c1.burn_block_height ∉ hs := by
    rw [hb1]
    intro he
    exact hne (List.mem_cons_of_mem _ he)
  rw [hs2 hne2, hs1 hne1]

/-- Processing a list of round heights realises the multi-round map
evolution. -/
theorem processAll_evoHs (chain : ChainData) :
    ∀ (hs : List Int) (st st2 : MState),
      foldE (processHeight chain) st hs = .ok st2 → mapEvoHs hs st.1 st2.1 := by
  intro hs
  induction hs with
  | nil =>
    intro st st2 hok
    simp only [foldE] at hok
    rcases Except.ok.inj hok with rfl
    exact mapEvoHs_nil st.1
  | cons h hs ih =>
    intro st st2 hok
    simp only [foldE] at hok
    split at hok
    · exact absurd hok (by simp)
    · rename_i s1 hstep
      exact mapEvoH_then_Hs (processHeight_evoH chain st h s1 hstep) (ih s1 st2 hok)

/-- hopNext only depends on presence and parent fields. -/
theorem hopNext_congr (m m2 : CMap)
    (hpm : ∀ q, (lookupA m2 q).map Commit.parent = (lookupA m q).map Commit.parent)
    (h : String) : hopNext m2 h = hopNext m h := by
  simp only [hopNext]
  by_cases he : h = ""
  · rw [if_pos he, if_pos he]
  · rw [if_neg he, if_neg he]
    have hthis := hpm h
    rcases h1 : lookupA m h with _ | c <;> rcases h2 : lookupA m2 h with _ | c2
    · rfl
    · rw [h1, h2] at hthis
      simp only [Option.map] at hthis
      exact absurd hthis (by simp)
    · rw [h1, h2] at hthis
      simp only [Option.map] at hthis
      exact absurd hthis (by simp)
    · rw [h1, h2] at hthis
      simp only [Option.map] at hthis
      exact Option.some.inj hthis

/-- hopIter only depends on presence and parent fields. -/
theorem hopIter_congr (m m2 : CMap)
    (hpm : ∀ q, (lookupA m2 q).map Commit.parent = (lookupA m q).map Commit.parent) :
    ∀ (n : Nat) (h : String), hopIter m2 n h = hopIter m n h := by
  intro n
  induction n with
  | zero => intro h; rfl
  | succ n ih =>
    intro h
    simp only [hopIter]
    rw [hopNext_congr m m2 hpm h]
    rcases hopNext m h with _ | h2
    · rfl
    · exact ih h2

/-- Shifting reachability one hop past a present, truthy head. -/
theorem hopIter_shift (m : CMap) (h q : String) (hne : q ≠ h) (hh : h ≠ "") (c : Commit)
    (hc : lookupA m h = some c) :
    (∃ n, hopIter m n h = some q) ↔ (∃ n h2, c.parent = some h2 ∧ hopIter m n h2 = some q) := by
  have hnext : hopNext m h = c.parent := by
    simp only [hopNext]
    rw [if_neg hh, hc]
  constructor
  · rintro ⟨n, hn⟩
    cases n with
    | zero =>
      exact absurd (Option.some.inj hn) (fun he => hne he.symm)
    | succ n =>
      simp only [hopIter, hnext] at hn
      rcases hpp : c.parent with _ | h2
      · rw [hpp] at hn
        exact absurd hn (by simp)
      · rw [hpp] at hn
        exact ⟨n, h2, rfl, hn⟩
  · rintro ⟨n, h2, hp, hn⟩
    refine ⟨n + 1, ?_⟩
    simp only [hopIter, hnext, hp]
    exact hn

/-- The canonical walk: when it returns, every entry keeps all fields
except canonical, and canonical is set exactly on the entries already
canonical plus the hashes reachable from the walk start. -/
theorem canonicalWalk_char :
    ∀ (fuel : Nat) (m : CMap) (t : Option String) (m2 : CMap),
      canonicalWalk fuel m t = .ok m2 →
      (∀ q c, lookupA m q = some c → c.parent ≠ some "") →
      (∀ h0, t = some h0 → h0 ≠ "") →
      (∀ q c0, lookupA m q = some c0 → ∃ c2, lookupA m2 q = some c2 ∧
        c2.tip = c0.tip ∧ c2.parent = c0.parent ∧
        c2.burn_block_height = c0.burn_block_height ∧ c2.txid = c0.txid ∧
        c2.won = c0.won ∧ c2.stacks_height = c0.stacks_height ∧
        (c2.canonical = true ↔ (c0.canonical = true ∨
          ∃ n h0, t = some h0 ∧ hopIter m n h0 = some q))) ∧
      (∀ q, lookupA m q = none → lookupA m2 q = none) := by
  intro fuel
  induction fuel with
  | zero =>
    intro m t m2 hok _ _
    exact Except.noConfusion (show Except.error PyErr.fuelOut = Except.ok m2 from hok)
  | succ fuel ih =>
    intro m t m2 hok hne ht
    rcases t with _ | h
    · simp only [canonicalWalk] at hok
      rcases Except.ok.inj hok with rfl
      refine ⟨?_, fun q hq => hq⟩
      intro q c0 hq
      exact ⟨c0, hq, rfl, rfl, rfl, rfl, rfl, rfl, by simp⟩
    · have hh : h ≠ "" := ht h rfl
      simp only [canonicalWalk] at hok
      rw [if_neg hh] at hok
      split at hok
      · exact absurd hok (by simp)
      · rename_i c hc
        have hne2 : ∀ q c2, lookupA (insertA m h { c with canonical := true }) q = some c2 →
            c2.parent ≠ some "" := by
          intro q c2 hq
          by_cases hqh : q = h
          · rw [hqh, lookupA_insertA_self] at hq
            have he2 : { c with canonical := true } = c2 := Option.some.inj hq
            rw [← he2]
            exact hne h c hc
          · rw [lookupA_insertA_ne _ _ _ _ hqh] at hq
            exact hne q c2 hq
        have ht2 : ∀ h0, c.parent = some h0 → h0 ≠ "" := by
          intro h0 hp0 he
          exact hne h c hc (by rw [hp0, he])
        rcases ih (insertA m h { c with canonical := true }) c.parent m2 hok hne2 ht2 with
          ⟨ihent, ihnone⟩
        have hpm : ∀ q, (lookupA (insertA m h { c with canonical := true }) q).map
            Commit.parent = (lookupA m q).map Commit.parent := by
          intro q
          by_cases hqh : q = h
          · rw [hqh, lookupA_insertA_self, hc]
            rfl
          · rw [lookupA_insertA_ne _ _ _ _ hqh]
        refine ⟨?_, ?_⟩
        · intro q c0 hq
          by_cases hqh : q = h
          · have hc0 : c0 = c := by
              rw [hqh, hc] at hq
              exact (Option.some.inj hq).symm
            have hq2 : lookupA (insertA m h { c with canonical := true }) q =
                some { c with canonical := true } := by
              rw [hqh]
              exact lookupA_insertA_self _ _ _
            rcases ihent q { c with canonical := true } hq2 with
              ⟨c2, hc2, f1, f2, f3, f4, f5, f6, fiff⟩
            refine ⟨c2, hc2, ?_, ?_, ?_, ?_, ?_, ?_, ?_⟩
            · rw [hc0]; exact f1
            · rw [hc0]; exact f2
            · rw [hc0]; exact f3
            · rw [hc0]; exact f4
            · rw [hc0]; exact f5
            · rw [hc0]; exact f6
            · constructor
              · intro _
                refine Or.inr ⟨0, h, rfl, ?_⟩
                rw [hqh]
                rfl
              · intro _
                exact fiff.mpr (Or.inl rfl)
          · have hq2 : lookupA (insertA m h { c with canonical := true }) q = some c0 := by
              rw [lookupA_insertA_ne _ _ _ _ hqh]
              exact hq
            rcases ihent q c0 hq2 with ⟨c2, hc2, f1, f2, f3, f4, f5, f6, fiff⟩
            refine ⟨c2, hc2, f1, f2, f3, f4, f5, f6, ?_⟩
            rw [fiff]
            constructor
            · rintro (hcan | ⟨n, h0, hp0, hit⟩)
              · exact Or.inl hcan
              · rw [hopIter_congr m _ hpm] at hit
                rcases (hopIter_shift m h q hqh hh c hc).mpr ⟨n, h0, hp0, hit⟩ with ⟨n3, hn3⟩
                exact Or.inr ⟨n3, h, rfl, hn3⟩
            · rintro (hcan | ⟨n, h0, hs0, hit⟩)
              · exact Or.inl hcan
              · have hh0 : h0 = h := (Option.some.inj hs0).symm
                rw [hh0] at hit
                rcases (hopIter_shift m h q hqh hh c hc).mp ⟨n, hit⟩ with ⟨n2, h2, hp2, hit2⟩
                refine Or.inr ⟨n2, h2, hp2, ?_⟩
                rw [hopIter_congr m _ hpm]
                exact hit2
        · intro q hq
          by_cases hqh : q = h
          · rw [hqh, hc] at hq
            exact absurd hq (by simp)
          · refine ihnone q ?_
            rw [lookupA_insertA_ne _ _ _ _ hqh]
            exact hq

/-- A completed canonical walk reaches a root: some hash on the hop
chain from the start whose commit has no resolved parent. -/
theorem canonicalWalk_root :
    ∀ (fuel : Nat) (m : CMap) (h0 : String) (m2 : CMap),
      canonicalWalk fuel m (some h0) = .ok m2 →
      (∀ q c, lookupA m q = some c → c.parent ≠ some "") →
      h0 ≠ "" →
      ∃ n rh rc, hopIter m n h0 = some rh ∧ lookupA m2 rh = some rc ∧ rc.parent = none := by
  intro fuel
  induction fuel with
  | zero =>
    intro m h0 m2 hok _ _
    exact Except.noConfusion (show Except.error PyErr.fuelOut = Except.ok m2 from hok)
  | succ fuel ih =>
    intro m h0 m2 hok hne hh
    simp only [canonicalWalk] at hok
    rw [if_neg hh] at hok
    split at hok
    · exact absurd hok (by simp)
    · rename_i c hc
      set m3 := insertA m h0 { c with canonical := true } with hm3
      have hself : lookupA m3 h0 = some { c with canonical := true } := by
        rw [hm3]
        exact lookupA_insertA_self _ _ _
      have hother : ∀ q, q ≠ h0 → lookupA m3 q = lookupA m q := by
        intro q hq
        rw [hm3]
        exact lookupA_insertA_ne _ _ _ _ hq
      have hpm : ∀ q, (lookupA m3 q).map Commit.parent =
          (lookupA m q).map Commit.parent := by
        intro q
        by_cases hqh : q = h0
        · rw [hqh, hself, hc]
          rfl
        · rw [hother q hqh]
      rcases hpp : c.parent with _ | p
      · rw [hpp] at hok
        cases fuel with
        | zero =>
          exact Except.noConfusion (show Except.error PyErr.fuelOut = Except.ok m2 from hok)
        | succ fuel2 =>
          simp only [canonicalWalk] at hok
          rcases Except.ok.inj hok with rfl
          refine ⟨0, h0, { c with canonical := true }, rfl, hself, ?_⟩
          exact hpp
      · rw [hpp] at hok
        have hne2 : ∀ q c2, lookupA m3 q = some c2 → c2.parent ≠ some "" := by
          intro q c2 hq
          by_cases hqh : q = h0
          · rw [hqh, hself] at hq
            have he2 : { c with canonical := true } = c2 := Option.some.inj hq
            rw [← he2]
            exact hne h0 c hc
          · rw [hother q hqh] at hq
            exact hne q c2 hq
        have hp : p ≠ "" := by
          intro he
          exact hne h0 c hc (by rw [hpp, he])
        rcases ih m3 p m2 hok hne2 hp with ⟨n, rh, rc, hit, hrc, hrp⟩
        refine ⟨n + 1, rh, rc, ?_, hrc, hrp⟩
        have hnext : hopNext m h0 = some p := by
          simp only [hopNext]
          rw [if_neg hh, hc]
          exact hpp
        simp only [hopIter, hnext]
        rw [← hopIter_congr m m3 hpm]
        exact hit


/-- foldE splits over list append. -/
theorem foldE_append {σ α : Type} (f : σ → α → Except PyErr σ) :
    ∀ (l1 l2 : List α) (s : σ),
      foldE f s (l1 ++ l2) = match foldE f s l1 with
        | .error e => .error e
        | .ok s1 => foldE f s1 l2 := by
  intro l1
  induction l1 with
  | nil => intro l2 s; rfl
  | cons a l1 ih =>
    intro l2 s
    simp only [List.cons_append, foldE]
    rcases f s a with e | s2
    · rfl
    · exact ih l2 s2

/-- From a successful fold over l1 ++ a :: l2, extract the intermediate
states around the processing of a. -/
theorem foldE_decompose {σ α : Type} (f : σ → α → Except PyErr σ)
    (l1 l2 : List α) (a : α) (s s2 : σ)
    (h : foldE f s (l1 ++ a :: l2) = .ok s2) :
    ∃ sa sb, foldE f s l1 = .ok sa ∧ f sa a = .ok sb ∧ foldE f sb l2 = .ok s2 := by
  rw [foldE_append] at h
  split at h
  · exact absurd h (by simp)
  · rename_i sa ha
    simp only [foldE] at h
    split at h
    · exact absurd h (by simp)
    · rename_i sb hb
      exact ⟨sa, sb, ha, hb, h⟩

/-- Membership in the sorted-dedup insertion. -/
theorem insertSortedDedup_mem :
    ∀ (l : List Int) (x b : Int), b ∈ insertSortedDedup x l ↔ b = x ∨ b ∈ l := by
  intro l
  induction l with
  | nil =>
    intro x b
    simp [insertSortedDedup]
  | cons y ys ih =>
    intro x b
    simp only [insertSortedDedup]
    by_cases h1 : x < y
    · rw [if_pos h1]
      simp
    · rw [if_neg h1]
      by_cases h2 : x = y
      · rw [if_pos h2]
        subst h2
        simp only [List.mem_cons]
        constructor
        · intro h
          exact Or.inr h
        · rintro (rfl | h)
          · exact Or.inl rfl
          · exact h
      · rw [if_neg h2]
        simp only [List.mem_cons, ih x b]
        constructor
        · rintro (rfl | h)
          · exact Or.inr (Or.inl rfl)
          · rcases h with h | h
            · exact Or.inl h
            · exact Or.inr (Or.inr h)
        · rintro (h | h)
          · exact Or.inr (Or.inl h)
          · rcases h with h | h
            · exact Or.inl h
            · exact Or.inr (Or.inr h)

/-- The outer-loop height list contains exactly the burn heights of the
map's commits. -/
theorem heightsOf_mem (m : CMap) (b : Int) :
    b ∈ heightsOf m ↔ b ∈ m.map (fun kc => kc.2.burn_block_height) := by
  simp only [heightsOf]
  generalize m.map (fun kc => kc.2.burn_block_height) = l
  induction l with
  | nil => simp
  | cons x xs ih =>
    simp only [List.foldr_cons, insertSortedDedup_mem, ih, List.mem_cons]

theorem lookupA_mem {α β : Type} [DecidableEq α] :
    ∀ (m : List (α × β)) (a : α) (b : β), lookupA m a = some b → (a, b) ∈ m := by
  intro m
  induction m with
  | nil => intro a b h; exact absurd h (by simp [lookupA])
  | cons p t ih =>
    intro a b h
    simp only [lookupA] at h
    by_cases he : p.1 = a
    · rw [if_pos he] at h
      rcases Option.some.inj h with rfl
      rcases p with ⟨k, v⟩
      rcases he with rfl
      exact List.mem_cons_self _ _
    · rw [if_neg he] at h
      exact List.mem_cons_of_mem _ (ih a b h)

/-- Round processing marks the declared winner: an entry whose round is
in the processed height list and whose txid is the declared winning
txid of its round ends with won = true. -/
theorem processAll_won (chain : ChainData) :
    ∀ (hs : List Int) (st st2 : MState),
      foldE (processHeight chain) st hs = .ok st2 →
      ∀ q c, lookupA st.1 q = some c → c.burn_block_height ∈ hs →
      ∀ snap, chain.snapshots c.burn_block_height = some snap →
        snap.winning_block_txid = c.txid →
        ∃ c2, lookupA st2.1 q = some c2 ∧ c2.won = true := by
  intro hs
  induction hs with
  | nil =>
    intro st st2 _ q c _ hmem
    exact absurd hmem (by simp)
  | cons h hs ih =>
    intro st st2 hok q c hq hmem snap hsnap hwin
    simp only [foldE] at hok
    split at hok
    · exact absurd hok (by simp)
    · rename_i s1 hstep
      by_cases hbh : c.burn_block_height = h
      · have hsnap2 : chain.snapshots h = some snap := by
          rw [← hbh]
          exact hsnap
        simp only [processHeight] at hstep
        split at hstep
        · rename_i hsnone
          rw [hsnap2] at hsnone
          exact absurd hsnone (by simp)
        · rename_i snap2 hsnap3
          rw [hsnap2] at hsnap3
          have hs2 : snap2 = snap := (Option.some.inj hsnap3).symm
          have hqmem : q ∈ st.1.map Prod.fst := by
            rw [← lookupA_isSome_iff, hq]
            rfl
          rcases List.append_of_mem hqmem with ⟨l1, l2, hsplit⟩
          rw [hsplit] at hstep
          rcases foldE_decompose _ l1 l2 q st s1 hstep with ⟨sa, sb, hfa, hstepq, hfb⟩
          rcases (innerFold_evoH chain snap2 h l1 st sa hfa).1 q c hq with ⟨ca, hca, hevoa, _⟩
          have hcab : ca.burn_block_height = h := by
            rw [hevoa.2.2.2.1, hbh]
          have hcat : ca.txid = c.txid := hevoa.2.2.2.2.1
          have hwt : snap2.winning_block_txid = ca.txid := by
            rw [hs2, hcat]
            exact hwin
          simp only [innerStep] at hstepq
          split at hstepq
          · rename_i hnone
            rw [hca] at hnone
            exact absurd hnone (by simp)
          · rename_i ca2 hca2
            have hcc : ca2 = ca := by
              rw [hca] at hca2
              exact (Option.some.inj hca2).symm
            rw [hcc] at hstepq
            rw [if_pos hcab, if_pos hwt] at hstepq
            rcases winnerUpdate_entry chain snap2 sa.1 sa.2 q ca sb hca hstepq with
              ⟨_, _, _, cw, hcw, hwonw, _⟩
            rcases (innerFold_evoH chain snap2 h l2 sb s1 hfb).1 q cw hcw with ⟨c3, hc3, hevo3, _⟩
            have hw3 : c3.won = true := hevo3.2.2.2.2.2 hwonw
            rcases (processAll_evoHs chain hs s1 st2 hok).1 q c3 hc3 with ⟨c4, hc4, hevo4, _⟩
            exact ⟨c4, hc4, hevo4.2.2.2.2.2 hw3⟩
      · have hmem2 : c.burn_block_height ∈ hs := by
          rcases List.mem_cons.mp hmem with he | hm
          · exact absurd he hbh
          · exact hm
        rcases (processHeight_evoH chain st h s1 hstep).1 q c hq with ⟨c1, hc1, hevo1, _⟩
        have hb1 : c1.burn_block_height = c.burn_block_height := hevo1.2.2.2.1
        refine ih s1 st2 hok q c1 hc1 (by rw [hb1]; exact hmem2) snap ?_ ?_
        · rw [hb1]
          exact hsnap
        · rw [hevo1.2.2.2.2.1]
          exact hwin

/-- Claim C3: on a well-formed window (canonical flags initially clear,
no empty parent hashes, a truthy declared tip) where canonical marking
completes, the commits with canonical = true are exactly those
reachable from the externally declared tip by following parent links;
the tip commit carries tip = true; the walked path ends at a window
root (a commit with no resolved parent); and, when the outcome source
is chain-consistent along that path (the declared winner of every
fully-processed round on the path is the path commit itself), every
path commit in a fully-processed round has won = true. -/
theorem C3_canonical_path (fuel : Nat) (chain : ChainData) (c0 : CMap) (sb : Int)
    (m : CMap) (ct : String)
    (hok : mark_canonical_blocks fuel chain c0 sb = .ok (m, ct))
    (hc0canon : ∀ q c, lookupA c0 q = some c → c.canonical = false)
    (hc0ne : ∀ q c, lookupA c0 q = some c → c.parent ≠ some "")
    (hctne : ct ≠ "")
    (hwincons : ∀ q c, lookupA c0 q = some c → (∃ n, hopIter c0 n ct = some q) →
      ∀ snap2, chain.snapshots c.burn_block_height = some snap2 →
        0 < snap2.stacks_block_height → snap2.winning_block_txid = c.txid) :
    (∀ q c, lookupA m q = some c → (c.canonical = true ↔ ∃ n, hopIter c0 n ct = some q)) ∧
    (∃ cT, lookupA m ct = some cT ∧ cT.tip = true ∧ cT.canonical = true) ∧
    (∃ n rh rc, hopIter c0 n ct = some rh ∧ lookupA m rh = some rc ∧ rc.parent = none) ∧
    (∀ q c, lookupA m q = some c → (∃ n, hopIter c0 n ct = some q) →
      ∀ snap2, chain.snapshots c.burn_block_height = some snap2 →
        0 < snap2.stacks_block_height → c.won = true) := by
  simp only [mark_canonical_blocks] at hok
  split at hok
  · exact absurd hok (by simp)
  · rename_i st1 hfold
    split at hok
    · exact absurd hok (by simp)
    · rename_i snap hsnap
      split at hok
      · exact absurd hok (by simp)
      · rename_i cT1 hcT1
        split at hok
        · exact absurd hok (by simp)
        · rename_i m3 hwalk
          rcases Prod.mk.inj (Except.ok.inj hok) with ⟨rfl, hct0⟩
          have hct : snap.canonical_stacks_tip_hash = ct := hct0
          rw [hct] at hcT1 hwalk
          -- evolution facts of the round phase
          have hevoAll := processAll_evoHs chain (heightsOf c0) (c0, none) st1 hfold
          have hback : ∀ q c, lookupA st1.1 q = some c →
              ∃ cc0, lookupA c0 q = some cc0 ∧ entryEvo cc0 c := by
            intro q c hc
            rcases hq0 : lookupA c0 q with _ | cc0
            · rw [hevoAll.2.1 q hq0] at hc
              exact absurd hc (by simp)
            · rcases hevoAll.1 q cc0 hq0 with ⟨c2, hc2, hevo, _⟩
              have hce : c = c2 := by
                rw [hc] at hc2
                exact Option.some.inj hc2
              rw [hce]
              exact ⟨cc0, rfl, hevo⟩
          -- the pre-walk map with the tip flag set
          have hm2self : lookupA (insertA st1.1 ct { cT1 with tip := true }) ct =
              some { cT1 with tip := true } := lookupA_insertA_self _ _ _
          have hm2other : ∀ q, q ≠ ct →
              lookupA (insertA st1.1 ct { cT1 with tip := true }) q = lookupA st1.1 q := by
            intro q hq
            exact lookupA_insertA_ne _ _ _ _ hq
          have hm2back : ∀ q c, lookupA (insertA st1.1 ct { cT1 with tip := true }) q = some c →
              ∃ cc0, lookupA c0 q = some cc0 ∧ c.canonical = cc0.canonical ∧
                c.parent = cc0.parent ∧ c.burn_block_height = cc0.burn_block_height ∧
                c.txid = cc0.txid := by
            intro q c hc
            by_cases hq : q = ct
            · rw [hq, hm2self] at hc
              have hcv : { cT1 with tip := true } = c := Option.some.inj hc
              rcases hback ct cT1 hcT1 with ⟨cc0, hq0, hevo⟩
              subst hq
              refine ⟨cc0, hq0, ?_, ?_, ?_, ?_⟩
              · rw [← hcv]
                exact hevo.1
              · rw [← hcv]
                exact hevo.2.2.1
              · rw [← hcv]
                exact hevo.2.2.2.1
              · rw [← hcv]
                exact hevo.2.2.2.2.1
            · rw [hm2other q hq] at hc
              rcases hback q c hc with ⟨cc0, hq0, hevo⟩
              exact ⟨cc0, hq0, hevo.1, hevo.2.2.1, hevo.2.2.2.1, hevo.2.2.2.2.1⟩
          have hm2none : ∀ q, lookupA c0 q = none →
              lookupA (insertA st1.1 ct { cT1 with tip := true }) q = none := by
            intro q hq
            by_cases hqc : q = ct
            · rw [hqc] at hq
              rw [hevoAll.2.1 ct hq] at hcT1
              exact absurd hcT1 (by simp)
            · rw [hm2other q hqc]
              exact hevoAll.2.1 q hq
          -- canonical is still clear and parents still truthy before the walk
          have hm2canon : ∀ q c, lookupA (insertA st1.1 ct { cT1 with tip := true }) q =
              some c → c.canonical = false := by
            intro q c hc
            rcases hm2back q c hc with ⟨cc0, hq0, hcanon, _, _, _⟩
            rw [hcanon]
            exact hc0canon q cc0 hq0
          have hm2ne : ∀ q c, lookupA (insertA st1.1 ct { cT1 with tip := true }) q =
              some c → c.parent ≠ some "" := by
            intro q c hc
            rcases hm2back q c hc with ⟨cc0, hq0, _, hparent, _, _⟩
            rw [hparent]
            exact hc0ne q cc0 hq0
          have hm2pm : ∀ q, (lookupA (insertA st1.1 ct { cT1 with tip := true }) q).map
              Commit.parent = (lookupA c0 q).map Commit.parent := by
            intro q
            rcases hq0 : lookupA c0 q with _ | cc0
            · rw [hm2none q hq0]
            · rcases hevoAll.1 q cc0 hq0 with ⟨c2, hc2, hevo, _⟩
              by_cases hqc : q = ct
              · rw [hqc, hm2self]
                rw [hqc] at hc2
                rw [hc2] at hcT1
                have hcv : c2 = cT1 := Option.some.inj hcT1
                simp only [Option.map]
                have : cT1.parent = cc0.parent := by
                  rw [← hcv]
                  exact hevo.2.2.1
                rw [this]
              · rw [hm2other q hqc, hc2]
                simp only [Option.map]
                rw [hevo.2.2.1]
          have hiter2 : ∀ n h0, hopIter (insertA st1.1 ct { cT1 with tip := true }) n h0 =
              hopIter c0 n h0 := hopIter_congr c0 _ hm2pm
          -- walk characterisation
          rcases canonicalWalk_char fuel _ (some ct) m3 hwalk hm2ne
            (fun h0 he => by rw [← Option.some.inj he]; exact hctne) with ⟨hchar, hnone3⟩
          have hmback : ∀ q c, lookupA m3 q = some c →
              ∃ cm2, lookupA (insertA st1.1 ct { cT1 with tip := true }) q = some cm2 ∧
                c.tip = cm2.tip ∧ c.parent = cm2.parent ∧
                c.burn_block_height = cm2.burn_block_height ∧ c.txid = cm2.txid ∧
                c.won = cm2.won ∧ c.stacks_height = cm2.stacks_height ∧
                (c.canonical = true ↔ (cm2.canonical = true ∨
                  ∃ n, hopIter c0 n ct = some q)) := by
            intro q c hc
            rcases hq2 : lookupA (insertA st1.1 ct { cT1 with tip := true }) q with _ | cm2
            · rw [hnone3 q hq2] at hc
              exact absurd hc (by simp)
            · rcases hchar q cm2 hq2 with ⟨c2, hc2, f1, f2, f3, f4, f5, f6, fiff⟩
              have hce : c = c2 := by
                rw [hc] at hc2
                exact Option.some.inj hc2
              rw [hce]
              refine ⟨cm2, rfl, f1, f2, f3, f4, f5, f6, ?_⟩
              rw [fiff]
              constructor
              · rintro (hcan | ⟨n, h0, hs0, hit⟩)
                · exact Or.inl hcan
                · have hh0 : h0 = ct := (Option.some.inj hs0).symm
                  rw [hh0] at hit
                  rw [hiter2] at hit
                  exact Or.inr ⟨n, hit⟩
              · rintro (hcan | ⟨n, hit⟩)
                · exact Or.inl hcan
                · refine Or.inr ⟨n, ct, rfl, ?_⟩
                  rw [hiter2]
                  exact hit
          refine ⟨?_, ?_, ?_, ?_⟩
          · -- canonical = reachability
            intro q c hc
            rcases hmback q c hc with ⟨cm2, hq2, _, _, _, _, _, _, hiff⟩
            rw [hiff]
            have := hm2canon q cm2 hq2
            constructor
            · rintro (hcan | hreach)
              · rw [this] at hcan
                exact absurd hcan (by simp)
              · exact hreach
            · intro hreach
              exact Or.inr hreach
          · -- the tip commit
            rcases hchar ct { cT1 with tip := true } hm2self with
              ⟨c2, hc2, f1, f2, f3, f4, f5, f6, fiff⟩
            refine ⟨c2, hc2, ?_, ?_⟩
            · rw [f1]
            · exact fiff.mpr (Or.inr ⟨0, ct, rfl, rfl⟩)
          · -- the path root
            rcases canonicalWalk_root fuel _ ct m3 hwalk hm2ne hctne with
              ⟨n, rh, rc, hit, hrc, hrp⟩
            rw [hiter2] at hit
            exact ⟨n, rh, rc, hit, hrc, hrp⟩
          · -- won on the processed path
            intro q c hc hreach snap2 hsnap2 hproc
            rcases hmback q c hc with ⟨cm2, hq2, _, _, fb, ft, fw, _, _⟩
            rcases hm2back q cm2 hq2 with ⟨cc0, hq0, _, _, hburn2, htxid2⟩
            have hbq : cc0.burn_block_height = c.burn_block_height := by
              rw [fb, hburn2]
            have htq : cc0.txid = c.txid := by
              rw [ft, htxid2]
            have hwinq : snap2.winning_block_txid = cc0.txid := by
              refine hwincons q cc0 hq0 hreach snap2 ?_ hproc
              rw [hbq]
              exact hsnap2
            have hmemh : cc0.burn_block_height ∈ heightsOf c0 := by
              rw [heightsOf_mem]
              have hmempair := lookupA_mem c0 q cc0 hq0
              exact List.mem_map_of_mem (fun kc => kc.2.burn_block_height) hmempair
            rcases processAll_won chain (heightsOf c0) (c0, none) st1 hfold q cc0 hq0 hmemh
              snap2 (by rw [hbq]; exact hsnap2) hwinq with ⟨cw, hcw, hwonw⟩
            -- transfer won = true through the tip flag and the walk
            have hcm2w : cm2.won = true := by
              by_cases hqc : q = ct
              · rw [hqc, hm2self] at hq2
                have hcv : { cT1 with tip := true } = cm2 := Option.some.inj hq2
                rw [hqc] at hcw
                rw [hcw] at hcT1
                have hcv2 : cw = cT1 := Option.some.inj hcT1
                rw [← hcv]
                show cT1.won = true
                rw [← hcv2]
                exact hwonw
              · rw [hm2other q hqc] at hq2
                rw [hcw] at hq2
                have hcv : cw = cm2 := Option.some.inj hq2
                rw [← hcv]
                exact hwonw
            rw [fw]
            exact hcm2w

/-- Case split for a concrete two-entry commit map. -/
theorem lookupA_two {v1 v2 : Commit} {q : String} {c : Commit}
    (h : lookupA [("a", v1), ("b", v2)] q = some c) :
    (q = "a" ∧ c = v1) ∨ (q = "b" ∧ c = v2) := by
  simp only [lookupA] at h
  by_cases h1 : "a" = q
  · rw [if_pos h1] at h
    exact Or.inl ⟨h1.symm, (Option.some.inj h).symm⟩
  · rw [if_neg h1] at h
    by_cases h2 : "b" = q
    · rw [if_pos h2] at h
      exact Or.inr ⟨h2.symm, (Option.some.inj h).symm⟩
    · rw [if_neg h2] at h
      exact absurd h (by simp)

/-- Witness for C3 at the two-round example: the marking succeeds and
produces exactly the canonical path a ← b. -/
theorem C3_canonical_path_witness :
    (∀ q c, lookupA [("a", c3FinalA), ("b", c3FinalB)] q = some c →
        (c.canonical = true ↔ ∃ n, hopIter c3Map n "b" = some q)) ∧
    (∃ cT, lookupA [("a", c3FinalA), ("b", c3FinalB)] "b" = some cT ∧
        cT.tip = true ∧ cT.canonical = true) ∧
    (∃ n rh rc, hopIter c3Map n "b" = some rh ∧
        lookupA [("a", c3FinalA), ("b", c3FinalB)] rh = some rc ∧ rc.parent = none) ∧
    (∀ q c, lookupA [("a", c3FinalA), ("b", c3FinalB)] q = some c →
        (∃ n, hopIter c3Map n "b" = some q) →
        ∀ snap2, c3Chain.snapshots c.burn_block_height = some snap2 →
          0 < snap2.stacks_block_height → c.won = true) :=
  C3_canonical_path 10 c3Chain c3Map 11 [("a", c3FinalA), ("b", c3FinalB)] "b"
    (by rfl)
    (by intro q c h
        have h2 : lookupA [("a", c3A0), ("b", c3B0)] q = some c := h
        rcases lookupA_two h2 with ⟨_, rfl⟩ | ⟨_, rfl⟩ <;> rfl)
    (by intro q c h
        have h2 : lookupA [("a", c3A0), ("b", c3B0)] q = some c := h
        rcases lookupA_two h2 with ⟨_, rfl⟩ | ⟨_, rfl⟩ <;> simp [c3A0, c3B0])
    (by decide)
    (by intro q c hq hreach snap2 hsnap2 hproc
        have hq2 : lookupA [("a", c3A0), ("b", c3B0)] q = some c := hq
        rcases lookupA_two hq2 with ⟨_, rfl⟩ | ⟨_, rfl⟩
        · have he : (⟨"ta", 1, "cha", "unused"⟩ : Snapshot) = snap2 :=
            Option.some.inj (show some (⟨"ta", 1, "cha", "unused"⟩ : Snapshot) =
              some snap2 from hsnap2)
          rw [← he]
          rfl
        · have he : (⟨"tb", 2, "chb", "b"⟩ : Snapshot) = snap2 :=
            Option.some.inj (show some (⟨"tb", 2, "chb", "b"⟩ : Snapshot) =
              some snap2 from hsnap2)
          rw [← he]
          rfl)

/-- Claim C7 counterexample: a non-winner whose in-window parent has a
null resolved height does not get resolved_height = parent + 1 — the
addition raises TypeError and the whole marking run aborts. -/
theorem C7_counterexample :
    mark_canonical_blocks 10 c7Chain [("p", c7P), ("c", c7C)] 11 =
      .error .typeError := by
  rfl

/-- Claim C7 (amended): during canonical marking, a commit that is not
its round's declared winner, whose parent hash is truthy and present in
the window, and whose parent's resolved height is non-null v, has its
resolved_height set to v + 1 by the per-commit round step, everything
else unchanged. -/
theorem C7_non_winner_height (chain : ChainData) (snap : Snapshot) (h : Int)
    (st : MState) (k p : String) (c pc : Commit) (v : Int)
    (hc : lookupA st.1 k = some c)
    (hb : c.burn_block_height = h)
    (hnw : snap.winning_block_txid ≠ c.txid)
    (hp : c.parent = some p)
    (hpne : p ≠ "")
    (hpc : lookupA st.1 p = some pc)
    (hph : pc.stacks_height = some v) :
    innerStep chain snap h st k =
      .ok (insertA st.1 k { c with stacks_height := some (v + 1) }, st.2) := by
  simp only [innerStep, nonWinnerUpdate, hc, hp, hpc, hph]
  rw [if_pos hb, if_neg hnw, if_neg hpne]

/-- Witness for C7 at a concrete round step. -/
theorem C7_non_winner_height_witness :
    innerStep c7Chain ⟨"w", 0, "ch11", "x"⟩ 11 ([("p", c7P2), ("c", c7C)], none) "c" =
      .ok (insertA [("p", c7P2), ("c", c7C)] "c"
        { c7C with stacks_height := some (3 + 1) }, none) :=
  C7_non_winner_height c7Chain ⟨"w", 0, "ch11", "x"⟩ 11
    ([("p", c7P2), ("c", c7C)], none) "c" "p" c7C c7P2 3
    (by rfl) (by rfl) (by decide) (by rfl) (by decide) (by rfl) (by rfl)
